import Mathlib

/-!
# s3aescp: streaming AES-CTR copy between local files and S3

A shallow embedding of `s3aescp.go`, `upload.go` and `download.go`, followed by the facts
proved about it.

* Bytes are natural numbers, byte slices are lists.
* `int64` values (`chunkSize`, `remain`, `offset`, `currentBlock`) are integers; the only
  arithmetic a user can push past 63 bits is `*chunkPtr*1024` in `main`, which wraps
  (`chunkOfFlag`).
* The block cipher is a parameter `block`; counter mode is built on it as in `crypto/cipher`.
* A local file is its content; opening, `Stat` and `Write` succeed, `Read` behaves as
  `os.File.Read` on a regular file.
* The store is a record of answers (`S3`); every call made on it is logged in order.
* Loops that the source writes as `for remain > 0` or `for currentBuffer > 0` take a fuel
  argument; running out of fuel is the status `Status.running`.
* `CheckErrorAndExit` with a non-nil error is the status `Status.exited 1`.
* A Go run-time panic (`make` of a length it does not serve, slice bounds) is the status
  `Status.panicked`. `make([]byte, n)` panics for `n < 0` and, in `LocalEncryptDecrypt` and
  `DownloadAndDecrypt`, for `n` above the allocation limit `allocLimit` of the run;
  `UploadAndEncrypt` is modelled for chunk sizes whose two buffers are made.
* The reusable `plaintext`/`ciphertext` buffers are represented by the bytes the last `Read`
  or `XORKeyStream` put at their front; every slice the source takes of them lies inside
  that front part.
-/

namespace S3aescp

/-- A byte of a file, an IV or a key stream. -/
abbrev Byte := Nat

/-- The constant `aes.BlockSize`. -/
def BlockSize : Nat := 16

/-- The constant `maxRetries` of `upload.go`. -/
def maxRetries : Nat := 10

/-- How a call of one of the three transfer functions ends. -/
inductive Status where
  | returned (code : Int)
  | exited (code : Int)
  | panicked
  | running
  deriving DecidableEq

/-! ## crypto/cipher: counter mode -/

/-- Increment of a little-endian counter, the carry loop of `crypto/cipher`. -/
def incLE : List Byte → List Byte
  | [] => []
  | b :: bs => if (b + 1) % 256 = 0 then 0 :: incLE bs else (b + 1) % 256 :: bs

/-- Increment of the big-endian CTR counter block. -/
def incCounter (ctr : List Byte) : List Byte :=
  (incLE ctr.reverse).reverse

/-- Counter block number `i` of the stream started at `iv`. -/
def counterAt (iv : List Byte) (i : Nat) : List Byte :=
  Nat.iterate incCounter i iv

/-- Byte `p` of the CTR key stream of the block cipher `block` started at `iv`. -/
def keystreamByte (block : List Byte → List Byte) (iv : List Byte) (p : Nat) : Byte :=
  (block (counterAt iv (p / BlockSize))).getD (p % BlockSize) 0

/-- XOR of `src` with the key stream `ks`, the first byte of `src` meeting `ks p`. -/
def xorAt (ks : Nat → Byte) : Nat → List Byte → List Byte
  | _, [] => []
  | p, b :: bs => (b ^^^ ks p) :: xorAt ks (p + 1) bs

/-- The value returned by `cipher.NewCTR`: the cipher, the IV and the number of key stream
bytes already consumed. -/
structure CTRStream where
  block : List Byte → List Byte
  iv : List Byte
  used : Nat

/-- The call `cipher.NewCTR(block, iv)`. -/
def NewCTR (block : List Byte → List Byte) (iv : List Byte) : CTRStream :=
  { block := block, iv := iv, used := 0 }

/-- The call `stream.XORKeyStream(dst, src)`: the advanced stream and the bytes put at the
front of `dst`. -/
def CTRStream.XORKeyStream (s : CTRStream) (src : List Byte) : CTRStream × List Byte :=
  ({ s with used := s.used + src.length }, xorAt (keystreamByte s.block s.iv) s.used src)

/-- The CTR transform of a whole byte sequence from key stream position 0. -/
def ctrCrypt (block : List Byte → List Byte) (iv : List Byte) (p : List Byte) : List Byte :=
  xorAt (keystreamByte block iv) 0 p

/-! ## os.File -/

/-- A file opened for reading: its content and the read offset. -/
structure ReadFile where
  data : List Byte
  offset : Nat

/-- What `Read` hands back: the advanced file, the bytes delivered and whether the error is
`io.EOF` (the only error a readable regular file gives). -/
structure ReadResult where
  file : ReadFile
  bytes : List Byte
  eof : Bool

/-- The call `f.Read(b)` of `os.File` with `len(b) = n`: nothing and no error for an empty
buffer, `0, io.EOF` at the end of the file, otherwise as many bytes as fit. -/
def ReadFile.Read (f : ReadFile) (n : Nat) : ReadResult :=
  if n = 0 then { file := f, bytes := [], eof := false }
  else if f.data.length ≤ f.offset then { file := f, bytes := [], eof := true }
  else
    { file := { f with offset := f.offset + ((f.data.drop f.offset).take n).length },
      bytes := (f.data.drop f.offset).take n,
      eof := false }

/-- A file opened with `os.O_RDWR|os.O_CREATE` (no truncation): its content and the write
offset. -/
structure WriteFile where
  data : List Byte
  offset : Nat

/-- The call `f.Write(b)` on a file that accepts the write: the bytes replace what was at the
offset and extend the file when they reach past its end; the count written is `len(b)`. -/
def WriteFile.Write (f : WriteFile) (b : List Byte) : WriteFile × Nat :=
  ({ data := f.data.take f.offset ++ b ++ f.data.drop (f.offset + b.length),
     offset := f.offset + b.length }, b.length)

/-- The call `os.OpenFile(dest, os.O_RDWR|os.O_CREATE, 0666)`: an absent path becomes an empty
file, an existing file keeps its content; the offset is 0. -/
def openDest (dest : Option (List Byte)) : WriteFile :=
  { data := dest.getD [], offset := 0 }

/-! ## The Go run time: `make` -/

/-- The constant `maxAlloc` of the Go run time on a 64-bit Linux target: no slice of more
bytes is ever made. -/
def maxAlloc : Int := 2 ^ 48

/-- Does `make([]byte, n)` panic: it does for a negative `n` and for an `n` above
`allocLimit`, the largest length the run time serves in the environment of the run (never
more than `maxAlloc`, less where memory is short). -/
def makeFails (allocLimit n : Int) : Bool :=
  n < 0 ∨ allocLimit < n

/-! ## s3aescp.go -/

/-- The argument `*chunkPtr*1024` of `main`, an `int64` product. -/
def chunkOfFlag (chunk : Int) : Int :=
  (chunk * 1024 + 2 ^ 63) % 2 ^ 64 - 2 ^ 63

/-- The check `*chunkPtr < 0` of `main`: does the command line get past it. -/
def chunkFlagAccepted (chunk : Int) : Bool :=
  ¬ (chunk < 0)

/-- The variables of the transfer loop of `LocalEncryptDecrypt`; `seen` lists the values of
`remain` the loop condition has tested so far. -/
structure LocalState where
  fileIn : ReadFile
  fileOut : WriteFile
  stream : CTRStream
  remain : Int
  blockNum : Nat
  seen : List Int

/-- The outcome of `LocalEncryptDecrypt`: status, content of the destination file, last value
of `remain` and the values of `remain` tested by the loop condition. -/
structure LocalResult where
  status : Status
  dest : List Byte
  remain : Int
  seen : List Int

/-- The loop `for remain > 0` of `LocalEncryptDecrypt` and the `return 0` after it. -/
def localLoop (chunkSize : Int) : Nat → LocalState → LocalResult
  | 0, st =>
    { status := Status.running, dest := st.fileOut.data, remain := st.remain, seen := st.seen }
  | fuel + 1, st =>
    if st.remain > 0 then
      let currentBlock : Int := if chunkSize > st.remain then st.remain else chunkSize
      let rd := st.fileIn.Read chunkSize.toNat
      if rd.eof then
        { status := Status.exited 1, dest := st.fileOut.data, remain := st.remain,
          seen := st.seen ++ [st.remain] }
      else if (rd.bytes.length : Int) ≠ currentBlock then
        { status := Status.exited 1, dest := st.fileOut.data, remain := st.remain,
          seen := st.seen ++ [st.remain] }
      else
        let x := st.stream.XORKeyStream (rd.bytes.take currentBlock.toNat)
        let wr := st.fileOut.Write (x.2.take currentBlock.toNat)
        if (wr.2 : Int) ≠ currentBlock then
          { status := Status.exited 1, dest := wr.1.data, remain := st.remain,
            seen := st.seen ++ [st.remain] }
        else
          localLoop chunkSize fuel
            { fileIn := rd.file, fileOut := wr.1, stream := x.1,
              remain := st.remain - currentBlock, blockNum := st.blockNum + 1,
              seen := st.seen ++ [st.remain] }
    else
      { status := Status.returned 0, dest := st.fileOut.data, remain := st.remain,
        seen := st.seen ++ [st.remain] }

/-- The part of `LocalEncryptDecrypt` after the IV is known: `NewCTR`, the two calls
`make([]byte, chunkSize)` (which panic for a length `make` does not serve), the initial
`remain` and the loop. -/
def localTransfer (block : List Byte → List Byte) (iv : List Byte) (fileIn : ReadFile)
    (fileOut : WriteFile) (size : Int) (chunkSize : Int) (encryptFlag : Bool)
    (allocLimit : Int) (fuel : Nat) : LocalResult :=
  let stream := NewCTR block iv
  if makeFails allocLimit chunkSize then
    { status := Status.panicked, dest := fileOut.data, remain := size, seen := [] }
  else
    let remain : Int := if encryptFlag = false then size - BlockSize else size
    localLoop chunkSize fuel
      { fileIn := fileIn, fileOut := fileOut, stream := stream, remain := remain,
        blockNum := 0, seen := [] }

/-- The function `LocalEncryptDecrypt(source, dest, block, verbose, chunkSize, encryptFlag)`.
`source` is the content of the source file, `dest` the prior state of the destination path
(`none` when absent), `rnd` the 16 bytes `io.ReadFull(rand.Reader, iv)` delivers,
`allocLimit` the largest length `make` serves in the environment of the run. -/
def LocalEncryptDecrypt (source : List Byte) (dest : Option (List Byte))
    (block : List Byte → List Byte) (chunkSize : Int) (encryptFlag : Bool)
    (rnd : List Byte) (allocLimit : Int) (fuel : Nat) : LocalResult :=
  let fileIn : ReadFile := { data := source, offset := 0 }
  let size : Int := source.length
  let fileOut := openDest dest
  if encryptFlag then
    let wr := fileOut.Write rnd
    localTransfer block rnd fileIn wr.1 size chunkSize encryptFlag allocLimit fuel
  else
    let rd := fileIn.Read BlockSize
    if rd.eof then
      { status := Status.exited 1, dest := fileOut.data, remain := size, seen := [] }
    else if rd.bytes.length ≠ BlockSize then
      { status := Status.exited 1, dest := fileOut.data, remain := size, seen := [] }
    else
      localTransfer block rd.bytes rd.file fileOut size chunkSize encryptFlag allocLimit
        fuel

/-! ## The S3 client -/

/-- The `ETag` string S3 returns for an uploaded part. -/
abbrev ETag := String

/-- A value of `*s3.CompletedPart`: part number and ETag. -/
abbrev CompletedPart := Nat × ETag

/-- A call made on the S3 client `svc`, in the order made. A part upload is logged with the
ETag it returned (`none` when the call returned an error). -/
inductive Call where
  | headObject
  | getObject (first last : Int)
  | putObject (body : List Byte)
  | createMultipartUpload
  | uploadPart (partNumber : Nat) (body : List Byte) (etag : Option ETag)
  | completeMultipartUpload (parts : List (Option CompletedPart))
  | abortMultipartUpload
  deriving DecidableEq

/-- The remote store as the code sees it through `svc`.
* `headObject`: the `ContentLength` answered, `none` for an error;
* `getObject first last`: the pieces the body of the answer to `bytes=first-last` delivers,
  one per `Read`, `none` for an error;
* `putObject body`: whether the put succeeds;
* `createMultipartUpload`: whether the session is created;
* `uploadPart partNumber tryNum`: the ETag answered to attempt `tryNum` at uploading part
  `partNumber`, `none` for an error;
* `completeMultipartUpload parts`, `abortMultipartUpload`: whether the call succeeds. -/
structure S3 where
  headObject : Option Int
  getObject : Int → Int → Option (List (List Byte))
  putObject : List Byte → Bool
  createMultipartUpload : Bool
  uploadPart : Nat → Nat → Option ETag
  completeMultipartUpload : List (Option CompletedPart) → Bool
  abortMultipartUpload : Bool

/-- The body of a `GetObject` answer: the pieces still to be delivered. -/
structure Body where
  pieces : List (List Byte)

/-- The call `Body.Read(b)` with `len(b) = n`: the next piece, cut to the buffer; nothing
(with `io.EOF`, which both callers drop) once the pieces are used up. -/
def Body.Read (b : Body) (n : Nat) : Body × List Byte :=
  match b.pieces with
  | [] => (b, [])
  | p :: ps =>
    if p.length ≤ n then ({ pieces := ps }, p) else ({ pieces := p.drop n :: ps }, p.take n)

/-! ## download.go -/

/-- The outcome of `DownloadAndDecrypt`: status, content of the destination file and the
calls made on the S3 client. -/
structure DownloadResult where
  status : Status
  dest : List Byte
  calls : List Call

/-- The variables of the inner loop `for currentBuffer > 0`. -/
structure DrainState where
  body : Body
  stream : CTRStream
  fileOut : WriteFile
  currentBuffer : Int

/-- What the inner loop hands back: `stop` is `none` when the loop condition failed, and
otherwise the status that ended the run inside the loop. -/
structure DrainResult where
  stop : Option Status
  state : DrainState

/-- The inner loop `for currentBuffer > 0` of `DownloadAndDecrypt`. The error of `Read` is
dropped, as in the source. -/
def drainLoop (chunkSize : Int) : Nat → DrainState → DrainResult
  | 0, st => { stop := some Status.running, state := st }
  | fuel + 1, st =>
    if st.currentBuffer > 0 then
      let rd := st.body.Read chunkSize.toNat
      let rc := rd.2.length
      let x := st.stream.XORKeyStream (rd.2.take rc)
      let wr := st.fileOut.Write (x.2.take rc)
      if wr.2 ≠ rc then
        { stop := some (Status.exited 1),
          state := { body := rd.1, stream := x.1, fileOut := wr.1,
                     currentBuffer := st.currentBuffer } }
      else
        drainLoop chunkSize fuel
          { body := rd.1, stream := x.1, fileOut := wr.1,
            currentBuffer := st.currentBuffer - (rc : Int) }
    else { stop := none, state := st }

/-- The variables of the outer loop `for remain > 0` of `DownloadAndDecrypt`. -/
structure DownloadState where
  stream : CTRStream
  fileOut : WriteFile
  remain : Int
  blockNum : Nat
  offset : Int
  calls : List Call

/-- The outer loop `for remain > 0` of `DownloadAndDecrypt` and the `return 0` after it. -/
def downloadLoop (svc : S3) (chunkSize : Int) : Nat → DownloadState → DownloadResult
  | 0, st => { status := Status.running, dest := st.fileOut.data, calls := st.calls }
  | fuel + 1, st =>
    if st.remain > 0 then
      let currentBlock : Int := if chunkSize > st.remain then st.remain else chunkSize
      let calls := st.calls ++ [Call.getObject st.offset (st.offset + currentBlock - 1)]
      match svc.getObject st.offset (st.offset + currentBlock - 1) with
      | none => { status := Status.exited 1, dest := st.fileOut.data, calls := calls }
      | some pieces =>
        let d := drainLoop chunkSize fuel
            { body := { pieces := pieces }, stream := st.stream, fileOut := st.fileOut,
              currentBuffer := currentBlock }
        match d.stop with
        | some s => { status := s, dest := d.state.fileOut.data, calls := calls }
        | none =>
          downloadLoop svc chunkSize fuel
            { stream := d.state.stream, fileOut := d.state.fileOut,
              remain := st.remain - currentBlock, blockNum := st.blockNum + 1,
              offset := st.offset + currentBlock, calls := calls }
    else { status := Status.returned 0, dest := st.fileOut.data, calls := st.calls }

/-- The function `DownloadAndDecrypt(source, dest, block, verbose, chunkSize, configuration)`.
`dest` is the prior state of the destination path, `svc` the store behind the URL,
`allocLimit` the largest length `make` serves in the environment of the run. -/
def DownloadAndDecrypt (dest : Option (List Byte)) (block : List Byte → List Byte)
    (chunkSize : Int) (svc : S3) (allocLimit : Int) (fuel : Nat) : DownloadResult :=
  let fileOut := openDest dest
  match svc.headObject with
  | none => { status := Status.exited 1, dest := fileOut.data, calls := [Call.headObject] }
  | some contentLength =>
    if contentLength < BlockSize then
      { status := Status.exited 1, dest := fileOut.data, calls := [Call.headObject] }
    else
      let calls := [Call.headObject, Call.getObject 0 15]
      match svc.getObject 0 15 with
      | none => { status := Status.exited 1, dest := fileOut.data, calls := calls }
      | some pieces =>
        let rd := ({ pieces := pieces } : Body).Read BlockSize
        if rd.2.length ≠ BlockSize then
          { status := Status.exited 1, dest := fileOut.data, calls := calls }
        else
          let stream := NewCTR block rd.2
          if makeFails allocLimit chunkSize then
            { status := Status.panicked, dest := fileOut.data, calls := calls }
          else
            downloadLoop svc chunkSize fuel
              { stream := stream, fileOut := fileOut, remain := contentLength - 16,
                blockNum := 0, offset := 16, calls := calls }

/-! ## upload.go -/

/-- The outcome of `UploadAndEncrypt`: status and the calls made on the S3 client. -/
structure UploadResult where
  status : Status
  calls : List Call

/-- What `uploadPart` hands back: the calls it made, the part pointer (`none` for `nil`) and
whether the error is non-nil. -/
structure PartResult where
  calls : List Call
  part : Option CompletedPart
  err : Bool

/-- The loop `for tryNum <= maxRetries` of `uploadPart` and the `return nil, nil` after it. -/
def uploadPartLoop (svc : S3) (fileBytes : List Byte) (partNumber : Nat) :
    Nat → Nat → PartResult
  | 0, _ => { calls := [], part := none, err := false }
  | fuel + 1, tryNum =>
    if tryNum ≤ maxRetries then
      match svc.uploadPart partNumber tryNum with
      | none =>
        if tryNum = maxRetries then
          { calls := [Call.uploadPart partNumber fileBytes none], part := none, err := true }
        else
          let r := uploadPartLoop svc fileBytes partNumber fuel (tryNum + 1)
          { r with calls := Call.uploadPart partNumber fileBytes none :: r.calls }
      | some etag =>
        { calls := [Call.uploadPart partNumber fileBytes (some etag)],
          part := some (partNumber, etag), err := false }
    else { calls := [], part := none, err := false }

/-- The function `uploadPart(svc, resp, fileBytes, partNumber)`: `tryNum` starts at 1 and the loop body
runs at most `maxRetries` times. -/
def uploadPart (svc : S3) (fileBytes : List Byte) (partNumber : Nat) : PartResult :=
  uploadPartLoop svc fileBytes partNumber maxRetries 1

/-- The function `completeMultipartUpload(svc, resp, completedParts)`: the call made and
whether it succeeded. -/
def completeMultipartUpload (svc : S3) (completedParts : List (Option CompletedPart)) :
    Call × Bool :=
  (Call.completeMultipartUpload completedParts, svc.completeMultipartUpload completedParts)

/-- The function `abortMultipartUpload(svc, resp)`: the call made and whether it
succeeded. -/
def abortMultipartUpload (svc : S3) : Call × Bool :=
  (Call.abortMultipartUpload, svc.abortMultipartUpload)

/-- The variables of the loop `for remain > 0` of `UploadAndEncrypt`. -/
structure UploadState where
  fileIn : ReadFile
  stream : CTRStream
  remain : Int
  blockNum : Nat
  completedParts : List (Option CompletedPart)
  calls : List Call

/-- The loop `for remain > 0` of `UploadAndEncrypt` with the abort branch inside it and the
`completeMultipartUpload` call after it. -/
def uploadLoop (svc : S3) (iv : List Byte) (chunkSize : Int) : Nat → UploadState → UploadResult
  | 0, st => { status := Status.running, calls := st.calls }
  | fuel + 1, st =>
    if st.remain > 0 then
      let currentBlock : Int := if chunkSize > st.remain then st.remain else chunkSize
      if st.blockNum = 1 ∧ chunkSize < BlockSize then
        { status := Status.panicked, calls := st.calls }
      else
        let rd := if st.blockNum = 1 then st.fileIn.Read (chunkSize.toNat - BlockSize)
          else st.fileIn.Read chunkSize.toNat
        let r : Int := if st.blockNum = 1 then (rd.bytes.length : Int) + BlockSize
          else rd.bytes.length
        if rd.eof then { status := Status.exited 1, calls := st.calls }
        else if r ≠ currentBlock then { status := Status.exited 1, calls := st.calls }
        else
          let x := if st.blockNum = 1
            then st.stream.XORKeyStream (rd.bytes.take (currentBlock.toNat - BlockSize))
            else st.stream.XORKeyStream (rd.bytes.take currentBlock.toNat)
          let payload := if st.blockNum = 1 then (iv ++ x.2).take currentBlock.toNat
            else x.2.take currentBlock.toNat
          let up := uploadPart svc payload st.blockNum
          if up.err then
            let ab := abortMultipartUpload svc
            { status := if ab.2 then Status.returned 1 else Status.exited 1,
              calls := st.calls ++ up.calls ++ [ab.1] }
          else
            uploadLoop svc iv chunkSize fuel
              { fileIn := rd.file, stream := x.1, remain := st.remain - currentBlock,
                blockNum := st.blockNum + 1,
                completedParts := st.completedParts ++ [up.part],
                calls := st.calls ++ up.calls }
    else
      let done := completeMultipartUpload svc st.completedParts
      { status := if done.2 then Status.returned 0 else Status.exited 1,
        calls := st.calls ++ [done.1] }

/-- The function `UploadAndEncrypt(source, dest, block, verbose, chunkSize, configuration)`.
`source` is the content of the source file, `iv` the 16 bytes `io.ReadFull(rand.Reader, iv)`
delivers, `svc` the store behind the URL. -/
def UploadAndEncrypt (source : List Byte) (block : List Byte → List Byte) (chunkSize : Int)
    (iv : List Byte) (svc : S3) (fuel : Nat) : UploadResult :=
  let fileIn : ReadFile := { data := source, offset := 0 }
  let size : Int := source.length
  let stream := NewCTR block iv
  if chunkSize < 0 then { status := Status.panicked, calls := [] }
  else
    let remain : Int := size + 16
    if remain ≤ chunkSize then
      let rd := fileIn.Read (chunkSize.toNat - BlockSize)
      if rd.eof then { status := Status.exited 1, calls := [] }
      else
        let r : Int := (rd.bytes.length : Int) + BlockSize
        if r ≠ remain then { status := Status.exited 1, calls := [] }
        else
          let x := stream.XORKeyStream (rd.bytes.take (r.toNat - BlockSize))
          let body := (iv ++ x.2).take r.toNat
          { status := if svc.putObject body then Status.returned 0 else Status.exited 1,
            calls := [Call.putObject body] }
    else if svc.createMultipartUpload then
      uploadLoop svc iv chunkSize fuel
        { fileIn := fileIn, stream := stream, remain := remain, blockNum := 1,
          completedParts := [], calls := [Call.createMultipartUpload] }
    else { status := Status.exited 1, calls := [Call.createMultipartUpload] }

/-! ## Reading the call log -/

/-- Is the call a `PutObject`. -/
def Call.isPut : Call → Bool
  | Call.putObject _ => true
  | _ => false

/-- Is the call a `GetObject`. -/
def Call.isGet : Call → Bool
  | Call.getObject _ _ => true
  | _ => false

/-- Is the call a `CreateMultipartUpload`. -/
def Call.isCreate : Call → Bool
  | Call.createMultipartUpload => true
  | _ => false

/-- Is the call an `UploadPart`. -/
def Call.isUploadPart : Call → Bool
  | Call.uploadPart _ _ _ => true
  | _ => false

/-- Is the call a `CompleteMultipartUpload`. -/
def Call.isComplete : Call → Bool
  | Call.completeMultipartUpload _ => true
  | _ => false

/-- Is the call an `AbortMultipartUpload`. -/
def Call.isAbort : Call → Bool
  | Call.abortMultipartUpload => true
  | _ => false

/-- Is the call an `UploadPart` of part `n`. -/
def Call.isAttemptOf (n : Nat) : Call → Bool
  | Call.uploadPart k _ _ => k = n
  | _ => false

/-- Is the call an `UploadPart` of a part numbered above `n`. -/
def Call.isAttemptAbove (n : Nat) : Call → Bool
  | Call.uploadPart k _ _ => n < k
  | _ => false

/-- The payload of a part upload that succeeded. -/
def Call.acceptedPayload : Call → Option (List Byte)
  | Call.uploadPart _ body (some _) => some body
  | _ => none

/-- The record a part upload that succeeded gives rise to. -/
def Call.acceptedRecord : Call → Option CompletedPart
  | Call.uploadPart k _ (some e) => some (k, e)
  | _ => none

/-- The record list of a `CompleteMultipartUpload` call. -/
def Call.completeRecords : Call → Option (List (Option CompletedPart))
  | Call.completeMultipartUpload parts => some parts
  | _ => none

/-- The range of a `GetObject` call. -/
def Call.range : Call → Option (Int × Int)
  | Call.getObject a b => some (a, b)
  | _ => none

/-! ## Vocabulary of the statements -/

/-- The bytes of `O` in the inclusive range `[a, b]`. -/
def slice (O : List Byte) (a b : Int) : List Byte :=
  (O.drop a.toNat).take (b - a + 1).toNat

/-- Following the spec's words: a body answers the range `[a, b]` of the object `O` with
exactly the requested bytes, delivered in pieces of positive sizes. -/
def exactBody (O : List Byte) (a b : Int) (pieces : List (List Byte)) : Prop :=
  pieces.flatten = slice O a b ∧ ∀ p ∈ pieces, p ≠ []

/-- Following the spec's words: the ranges start at `a`, each is `min(c, len - start)` bytes
long, each starts one past the end of the one before, and the last ends at `len - 1`; there
is no range when `a = len`. -/
def contiguousRanges (c len : Int) : Int → List (Int × Int) → Prop
  | a, [] => a = len
  | a, r :: rest =>
    r.1 = a ∧ a < len ∧ r.2 - r.1 + 1 = min c (len - a) ∧ contiguousRanges c len (r.2 + 1) rest

/-- Following the spec's words: the store holds the object `O`, declares its size and
answers each range request inside it with exactly the requested bytes, the body delivering
them in pieces of positive sizes. -/
def exactStore (O : List Byte) (svc : S3) : Prop :=
  svc.headObject = some (O.length : Int) ∧
  ∀ a b : Int, 0 ≤ a → a ≤ b → b < O.length →
    ∃ pieces, svc.getObject a b = some pieces ∧ exactBody O a b pieces

/-- The wire format of the artifact: the IV followed by the CTR transform of the plaintext
taken in one piece. -/
def wire (block : List Byte → List Byte) (iv P : List Byte) : List Byte :=
  iv ++ ctrCrypt block iv P

/-- The number of parts of a multipart upload: `ceil((len(P)+16)/c)`. -/
def partCount (P : List Byte) (c : Int) : Nat :=
  (P.length + 16 + c.toNat - 1) / c.toNat

/-- The number of parts still to upload when `remain` bytes are left: `ceil(remain/c)`. -/
def partsLeft (remain c : Int) : Nat :=
  (remain.toNat + c.toNat - 1) / c.toNat

/-- The loop invariant of `UploadAndEncrypt`: `w` bytes of the wire format have been handed
to the store; before part 1 nothing has been read, afterwards the file offset and the key
stream position are both `w - 16`. -/
def UploadInv (block : List Byte → List Byte) (P iv : List Byte) (c : Int) (st : UploadState)
    (w : Nat) : Prop :=
  st.fileIn.data = P ∧ st.stream.block = block ∧ st.stream.iv = iv ∧
  st.remain = (P.length : Int) + 16 - w ∧
  ((st.blockNum = 1 ∧ w = 0 ∧ st.fileIn.offset = 0 ∧ st.stream.used = 0 ∧
      c < (P.length : Int) + 16) ∨
   (2 ≤ st.blockNum ∧ 16 ≤ w ∧ st.fileIn.offset + 16 = w ∧ st.stream.used + 16 = w ∧
      w ≤ P.length + 16))

/-- A stand-in for the AES block transform, used only to evaluate the embedding on concrete
inputs; every general theorem holds for an arbitrary `block`. -/
def toyBlock (ctr : List Byte) : List Byte :=
  ctr.map (fun b => (b * 7 + 3) % 256)

/-- Sixteen zero bytes, a fixed IV for concrete evaluations. -/
def zeroIV : List Byte := List.replicate 16 0

/-- A 17-byte object: the zero IV and one more byte. -/
def tinyObject : List Byte := zeroIV ++ [5]

/-- A store for `tinyObject` whose answer to the first chunk request `bytes=16-16` has an
empty body: the body ends one byte short. -/
def shortStore : S3 :=
  { headObject := some 17,
    getObject := fun a _ => if a = 0 then some [zeroIV] else some [],
    putObject := fun _ => true,
    createMultipartUpload := true,
    uploadPart := fun _ _ => none,
    completeMultipartUpload := fun _ => true,
    abortMultipartUpload := true }

/-- A store for `tinyObject` that answers every range request with exactly the requested
bytes; the body of `bytes=0-15` delivers them in two pieces of 8 bytes, every other body in
one piece. -/
def splitStore : S3 :=
  { headObject := some 17,
    getObject := fun a b =>
      if a = 0 ∧ b = 15 then some [List.replicate 8 0, List.replicate 8 0]
      else some [slice tinyObject a b],
    putObject := fun _ => true,
    createMultipartUpload := true,
    uploadPart := fun _ _ => none,
    completeMultipartUpload := fun _ => true,
    abortMultipartUpload := true }

/-- A store for `tinyObject` that answers every range request with exactly the requested
bytes in one piece. -/
def wholeStore : S3 :=
  { headObject := some 17,
    getObject := fun a b => some [slice tinyObject a b],
    putObject := fun _ => true,
    createMultipartUpload := true,
    uploadPart := fun _ _ => none,
    completeMultipartUpload := fun _ => true,
    abortMultipartUpload := true }

/-- A store that declares an object of 15 bytes. -/
def smallStore : S3 :=
  { headObject := some 15,
    getObject := fun _ _ => some [List.replicate 15 0],
    putObject := fun _ => true,
    createMultipartUpload := true,
    uploadPart := fun _ _ => none,
    completeMultipartUpload := fun _ => true,
    abortMultipartUpload := true }

/-- A store that accepts every call; each part upload fails once and succeeds at the second
attempt. -/
def acceptingStore : S3 :=
  { headObject := none,
    getObject := fun _ _ => none,
    putObject := fun _ => true,
    createMultipartUpload := true,
    uploadPart := fun pn t => if t < 2 then none else some (if pn = 1 then "a" else "b"),
    completeMultipartUpload := fun _ => true,
    abortMultipartUpload := true }

/-- A store on which every attempt at part 2 fails, and the abort call fails too. -/
def failingStore : S3 :=
  { headObject := none,
    getObject := fun _ _ => none,
    putObject := fun _ => true,
    createMultipartUpload := true,
    uploadPart := fun pn _ => if pn = 2 then none else some "a",
    completeMultipartUpload := fun _ => true,
    abortMultipartUpload := false }

/-! ## Basic facts: key stream and files -/

theorem xorAt_length (ks : Nat → Byte) (p : Nat) (l : List Byte) :
    (xorAt ks p l).length = l.length := by
  induction l generalizing p with
  | nil => rfl
  | cons b bs ih => simp [xorAt, ih]

theorem xorAt_append (ks : Nat → Byte) (p : Nat) (a b : List Byte) :
    xorAt ks p (a ++ b) = xorAt ks p a ++ xorAt ks (p + a.length) b := by
  induction a generalizing p with
  | nil => simp [xorAt]
  | cons x xs ih =>
    have h : p + 1 + xs.length = p + (xs.length + 1) := by omega
    simp [xorAt, ih, h]

theorem xorAt_involutive (ks : Nat → Byte) (p : Nat) (l : List Byte) :
    xorAt ks p (xorAt ks p l) = l := by
  induction l generalizing p with
  | nil => rfl
  | cons b bs ih =>
    simp only [xorAt, ih]
    congr 1
    exact Nat.xor_cancel_right _ _

theorem Write_offset_le (f : WriteFile) (b : List Byte) (h : f.offset ≤ f.data.length) :
    (f.Write b).1.offset ≤ (f.Write b).1.data.length := by
  simp only [WriteFile.Write, List.length_append, List.length_take, List.length_drop]
  omega

theorem Write_Write (f : WriteFile) (a b : List Byte) (h : f.offset ≤ f.data.length) :
    ((f.Write a).1.Write b).1 = (f.Write (a ++ b)).1 := by
  have h1 : (f.data.take f.offset).length = f.offset := by
    simp only [List.length_take]; omega
  have h2 : (f.data.take f.offset ++ a).length = f.offset + a.length := by
    simp only [List.length_append, h1]
  have h3 : (f.data.take f.offset ++ a ++ f.data.drop (f.offset + a.length)).take
      (f.offset + a.length) = f.data.take f.offset ++ a := by
    rw [List.take_append_of_le_length (by omega), List.take_of_length_le (by omega)]
  have h4 : (f.data.take f.offset ++ a ++ f.data.drop (f.offset + a.length)).drop
      (f.offset + a.length + b.length) = f.data.drop (f.offset + (a.length + b.length)) := by
    rw [List.drop_append_eq_append_drop, List.drop_of_length_le (by omega), h2,
      List.drop_drop, List.nil_append]
    congr 1
    omega
  simp only [WriteFile.Write]
  rw [h3, h4]
  simp only [List.length_append, List.append_assoc, Nat.add_assoc]

theorem Write_nil (f : WriteFile) : (f.Write []).1 = f := by
  simp [WriteFile.Write]

theorem Read_of_lt (f : ReadFile) (n : Nat) (hn : n ≠ 0) (h : f.offset < f.data.length) :
    f.Read n = { file := { f with offset := f.offset + ((f.data.drop f.offset).take n).length },
                 bytes := (f.data.drop f.offset).take n, eof := false } := by
  have h2 : ¬ f.data.length ≤ f.offset := by omega
  simp [ReadFile.Read, hn, h2]

theorem drop_split (l : List Byte) (o n : Nat) :
    l.drop o = (l.drop o).take n ++ l.drop (o + ((l.drop o).take n).length) := by
  rw [← List.drop_drop]
  generalize l.drop o = m
  by_cases h : n ≤ m.length
  · rw [List.length_take, Nat.min_eq_left h, List.take_append_drop]
  · rw [List.take_of_length_le (by omega), List.drop_length, List.append_nil]

/-! ## The transfer loop of `LocalEncryptDecrypt` -/

theorem localLoop_spec (chunkSize : Int) (hc : 0 < chunkSize) (fuel : Nat) (st : LocalState)
    (hoff : st.fileIn.offset ≤ st.fileIn.data.length)
    (hrem : st.remain = (st.fileIn.data.length : Int) - st.fileIn.offset)
    (hout : st.fileOut.offset ≤ st.fileOut.data.length)
    (hfuel : st.remain < fuel) :
    (localLoop chunkSize fuel st).status = Status.returned 0 ∧
    (localLoop chunkSize fuel st).dest =
      (st.fileOut.Write (xorAt (keystreamByte st.stream.block st.stream.iv) st.stream.used
        (st.fileIn.data.drop st.fileIn.offset))).1.data ∧
    (localLoop chunkSize fuel st).remain = 0 ∧
    ∃ tail, (localLoop chunkSize fuel st).seen = st.seen ++ tail ∧ (∀ r ∈ tail, 0 ≤ r) ∧
      tail.getLast? = some 0 := by
  induction fuel generalizing st with
  | zero => exfalso; simp at hfuel; omega
  | succ fuel ih =>
    by_cases hpos : st.remain > 0
    · have hlt : st.fileIn.offset < st.fileIn.data.length := by omega
      have hn : chunkSize.toNat ≠ 0 := by omega
      have hlen : (((st.fileIn.data.drop st.fileIn.offset).take chunkSize.toNat).length : Int) =
          if chunkSize > st.remain then st.remain else chunkSize := by
        simp only [List.length_take, List.length_drop]
        split <;> omega
      generalize hb : (st.fileIn.data.drop st.fileIn.offset).take chunkSize.toNat = bytes at hlen
      generalize hcb : (if chunkSize > st.remain then st.remain else chunkSize) = cb at hlen
      have hcbpos : 0 < cb := by rw [← hcb]; split <;> omega
      have hcble : cb ≤ st.remain := by rw [← hcb]; split <;> omega
      have hlenN : bytes.length = cb.toNat := by omega
      have htake : bytes.take cb.toNat = bytes := List.take_of_length_le (by omega)
      have hxtake : ∀ ks p, (xorAt ks p bytes).take cb.toNat = xorAt ks p bytes := fun ks p =>
        List.take_of_length_le (by rw [xorAt_length]; omega)
      have hsplit : st.fileIn.data.drop st.fileIn.offset =
          bytes ++ st.fileIn.data.drop (st.fileIn.offset + bytes.length) := by
        rw [← hb]; exact drop_split _ _ _
      have hstep : localLoop chunkSize (fuel + 1) st = localLoop chunkSize fuel
          { fileIn := { st.fileIn with offset := st.fileIn.offset + bytes.length },
            fileOut := (st.fileOut.Write
              (xorAt (keystreamByte st.stream.block st.stream.iv) st.stream.used bytes)).1,
            stream := { st.stream with used := st.stream.used + bytes.length },
            remain := st.remain - cb, blockNum := st.blockNum + 1,
            seen := st.seen ++ [st.remain] } := by
        rw [localLoop]
        simp only [hpos, if_true, Read_of_lt _ _ hn hlt, hb, hcb, hlen, ne_eq, not_true_eq_false,
          if_false, CTRStream.XORKeyStream, htake, hxtake, Bool.false_eq_true]
        have hw : (((st.fileOut.Write (xorAt (keystreamByte st.stream.block st.stream.iv)
            st.stream.used bytes)).2 : Nat) : Int) = cb := by
          simp only [WriteFile.Write, xorAt_length]; exact hlen
        simp only [hw, not_true_eq_false, if_false]
      rw [hstep]
      obtain ⟨h1, h2, h3, tail, h4, h5, h6⟩ := ih
          { fileIn := { st.fileIn with offset := st.fileIn.offset + bytes.length },
            fileOut := (st.fileOut.Write
              (xorAt (keystreamByte st.stream.block st.stream.iv) st.stream.used bytes)).1,
            stream := { st.stream with used := st.stream.used + bytes.length },
            remain := st.remain - cb, blockNum := st.blockNum + 1,
            seen := st.seen ++ [st.remain] }
          (by dsimp only; omega) (by dsimp only; omega) (Write_offset_le _ _ hout)
          (by dsimp only; omega)
      refine ⟨h1, ?_, h3, st.remain :: tail, ?_, ?_, ?_⟩
      · rw [h2]
        simp only []
        rw [Write_Write _ _ _ hout, ← xorAt_append, ← hsplit]
      · rw [h4]; simp
      · intro r hr
        rcases List.mem_cons.1 hr with rfl | hr
        · omega
        · exact h5 r hr
      · cases tail with
        | nil => simp at h6
        | cons t ts => simpa using h6
    · have h0 : st.remain = 0 := by omega
      have hd : st.fileIn.data.drop st.fileIn.offset = [] := by
        apply List.drop_of_length_le; omega
      simp only [localLoop, hpos, if_false, hd, xorAt, Write_nil]
      refine ⟨trivial, trivial, h0, [st.remain], rfl, ?_, ?_⟩
      · intro r hr; simp at hr; omega
      · simp [h0]

theorem makeFails_eq_false (allocLimit n : Int) (h0 : 0 ≤ n) (h1 : n ≤ allocLimit) :
    makeFails allocLimit n = false := by
  simp only [makeFails, decide_eq_false_iff_not]
  omega

/-- Encrypting with a positive chunk size that `make` serves returns 0 and leaves in the
destination what one `Write` of `IV ++ CTR(P)` at offset 0 leaves. -/
theorem encrypt_dest (block : List Byte → List Byte) (P iv : List Byte)
    (dest : Option (List Byte)) (c allocLimit : Int) (hc : 0 < c) (hcl : c ≤ allocLimit)
    (fuel : Nat) (hf : P.length < fuel) :
    (LocalEncryptDecrypt P dest block c true iv allocLimit fuel).status = Status.returned 0 ∧
    (LocalEncryptDecrypt P dest block c true iv allocLimit fuel).dest =
      iv ++ ctrCrypt block iv P ++ (dest.getD []).drop (iv.length + P.length) := by
  have hnc := makeFails_eq_false allocLimit c (by omega) hcl
  have h := localLoop_spec c hc fuel
    { fileIn := { data := P, offset := 0 }, fileOut := ((openDest dest).Write iv).1,
      stream := NewCTR block iv, remain := (P.length : Int), blockNum := 0, seen := [] }
    (by simp) (by simp) (Write_offset_le _ _ (by simp [openDest])) (by simpa using hf)
  simp only [LocalEncryptDecrypt, localTransfer, hnc, if_true, if_false, Bool.true_eq_false,
    Bool.false_eq_true]
  refine ⟨h.1, ?_⟩
  rw [h.2.1]
  simp only [NewCTR, List.drop_zero]
  rw [Write_Write _ _ _ (by simp [openDest])]
  simp [WriteFile.Write, openDest, ctrCrypt, xorAt_length]

/-- Decrypting an artifact of at least 16 bytes with a positive chunk size that `make`
serves returns 0 and
leaves in the destination what one `Write` of the CTR transform of its bytes from 16 on,
under the IV in its first 16 bytes, leaves. -/
theorem decrypt_dest (block : List Byte → List Byte) (A rnd : List Byte)
    (dest : Option (List Byte)) (c allocLimit : Int) (hc : 0 < c) (hcl : c ≤ allocLimit)
    (hA : 16 ≤ A.length) (fuel : Nat) (hf : A.length < fuel + 16) :
    (LocalEncryptDecrypt A dest block c false rnd allocLimit fuel).status = Status.returned 0 ∧
    (LocalEncryptDecrypt A dest block c false rnd allocLimit fuel).dest =
      ctrCrypt block (A.take 16) (A.drop 16) ++ (dest.getD []).drop (A.length - 16) := by
  have hnc := makeFails_eq_false allocLimit c (by omega) hcl
  have hrd : ({ data := A, offset := 0 } : ReadFile).Read 16 =
      { file := { data := A, offset := 16 }, bytes := A.take 16, eof := false } := by
    rw [Read_of_lt _ _ (by decide) (by simp; omega)]
    simp [Nat.min_eq_left hA]
  have h := localLoop_spec c hc fuel
    { fileIn := { data := A, offset := 16 }, fileOut := openDest dest,
      stream := NewCTR block (A.take 16), remain := (A.length : Int) - 16, blockNum := 0,
      seen := [] }
    (by simpa using hA) (by simp) (by simp [openDest]) (by simp; omega)
  simp only [LocalEncryptDecrypt, hrd, localTransfer, hnc, if_false, Bool.false_eq_true,
    List.length_take, Nat.min_eq_left hA, BlockSize, ne_eq, not_true_eq_false, if_true,
    Nat.cast_ofNat]
  refine ⟨h.1, ?_⟩
  rw [h.2.1]
  simp [WriteFile.Write, openDest, ctrCrypt, NewCTR, xorAt_length]

/-- With chunk size 0 and bytes remaining, no amount of fuel gets the loop to its exit. -/
theorem localLoop_zero_chunk (fuel : Nat) (st : LocalState) (h : st.remain > 0) :
    (localLoop 0 fuel st).status = Status.running := by
  induction fuel generalizing st with
  | zero => rfl
  | succ fuel ih =>
    have h0 : ¬ (0 : Int) > st.remain := by omega
    rw [localLoop]
    simp only [h, if_true, h0, if_false, Int.toNat_zero, ReadFile.Read, List.length_nil,
      Nat.cast_zero, ne_eq, not_true_eq_false, Bool.false_eq_true, WriteFile.Write,
      CTRStream.XORKeyStream, List.take_nil, xorAt]
    exact ih _ (by simpa using h)

/-! ## The loops of `DownloadAndDecrypt` -/

theorem Body_Read_spec (b : Body) (n : Nat) (hn : 0 < n) (hne : b.pieces ≠ [])
    (hall : ∀ p ∈ b.pieces, p ≠ []) :
    (b.Read n).2 ≠ [] ∧ b.pieces.flatten = (b.Read n).2 ++ (b.Read n).1.pieces.flatten ∧
    ∀ p ∈ (b.Read n).1.pieces, p ≠ [] := by
  obtain ⟨pieces⟩ := b
  cases pieces with
  | nil => exact absurd rfl hne
  | cons p ps =>
    have hp : p ≠ [] := hall p (List.mem_cons_self _ _)
    have hps : ∀ q ∈ ps, q ≠ [] := fun q hq => hall q (List.mem_cons_of_mem _ hq)
    by_cases h : p.length ≤ n
    · simp only [Body.Read, h, if_true, List.flatten_cons]
      exact ⟨hp, trivial, hps⟩
    · simp only [Body.Read, h, if_false, List.flatten_cons]
      refine ⟨?_, ?_, ?_⟩
      · intro h0
        have := congrArg List.length h0
        simp only [List.length_take, List.length_nil] at this
        omega
      · rw [← List.append_assoc, List.take_append_drop]
      · intro q hq
        rcases List.mem_cons.1 hq with rfl | hq
        · intro h0
          have := congrArg List.length h0
          simp only [List.length_drop, List.length_nil] at this
          omega
        · exact hps q hq

theorem drainLoop_spec (chunkSize : Int) (hc : 0 < chunkSize) (fuel : Nat) (st : DrainState)
    (hall : ∀ p ∈ st.body.pieces, p ≠ [])
    (hcur : st.currentBuffer = (st.body.pieces.flatten.length : Int))
    (hout : st.fileOut.offset ≤ st.fileOut.data.length)
    (hfuel : st.body.pieces.flatten.length < fuel) :
    (drainLoop chunkSize fuel st).stop = none ∧
    (drainLoop chunkSize fuel st).state.fileOut =
      (st.fileOut.Write (xorAt (keystreamByte st.stream.block st.stream.iv) st.stream.used
        st.body.pieces.flatten)).1 ∧
    (drainLoop chunkSize fuel st).state.stream =
      { st.stream with used := st.stream.used + st.body.pieces.flatten.length } := by
  induction fuel generalizing st with
  | zero => omega
  | succ fuel ih =>
    rw [drainLoop]
    by_cases hpos : st.currentBuffer > 0
    · have hne : st.body.pieces ≠ [] := by
        intro h0; rw [h0] at hcur; simp at hcur; omega
      obtain ⟨r1, r2, r3⟩ := Body_Read_spec st.body chunkSize.toNat (by omega) hne hall
      generalize st.body.Read chunkSize.toNat = rd at r1 r2 r3
      have hlen : 0 < rd.2.length := List.length_pos.2 r1
      have hjl : st.body.pieces.flatten.length = rd.2.length + rd.1.pieces.flatten.length := by
        rw [r2, List.length_append]
      simp only [hpos, if_true, List.take_length, CTRStream.XORKeyStream]
      have ht : (xorAt (keystreamByte st.stream.block st.stream.iv) st.stream.used rd.2).take
          rd.2.length = xorAt (keystreamByte st.stream.block st.stream.iv) st.stream.used rd.2 :=
        List.take_of_length_le (by rw [xorAt_length])
      have hw : (st.fileOut.Write
          (xorAt (keystreamByte st.stream.block st.stream.iv) st.stream.used rd.2)).2
          = rd.2.length := by simp [WriteFile.Write, xorAt_length]
      simp only [ht, hw, ne_eq, not_true_eq_false, if_false]
      obtain ⟨h1, h2, h3⟩ := ih
        { body := rd.1,
          stream := { st.stream with used := st.stream.used + rd.2.length },
          fileOut := (st.fileOut.Write
            (xorAt (keystreamByte st.stream.block st.stream.iv) st.stream.used rd.2)).1,
          currentBuffer := st.currentBuffer - (rd.2.length : Int) }
        r3 (by dsimp only; omega) (Write_offset_le _ _ hout) (by dsimp only; omega)
      refine ⟨h1, ?_, ?_⟩
      · rw [h2]
        dsimp only
        rw [Write_Write _ _ _ hout, ← xorAt_append, ← r2]
      · rw [h3]
        dsimp only
        rw [hjl, Nat.add_assoc]
    · have h0 : st.body.pieces.flatten = [] := by
        apply List.eq_nil_of_length_eq_zero; omega
      simp only [hpos, if_false, h0, xorAt, Write_nil, List.length_nil, Nat.add_zero]
      exact ⟨trivial, trivial, trivial⟩

theorem drainLoop_short (chunkSize : Int) (fuel : Nat) (st : DrainState)
    (hshort : (st.body.pieces.flatten.length : Int) < st.currentBuffer) :
    (drainLoop chunkSize fuel st).stop = some Status.running := by
  induction fuel generalizing st with
  | zero => rfl
  | succ fuel ih =>
    obtain ⟨⟨pieces⟩, stream, fileOut, cur⟩ := st
    dsimp only at hshort
    have hpos : cur > 0 := by omega
    rw [drainLoop]
    have hw : ∀ l : List Byte, (fileOut.Write l).2 = l.length := fun l => rfl
    simp only [hpos, if_true, hw, List.take_length, CTRStream.XORKeyStream, xorAt_length,
      List.length_take, Nat.min_self, ne_eq, not_true_eq_false, if_false]
    apply ih
    dsimp only
    cases pieces with
    | nil => simpa [Body.Read] using hpos
    | cons p ps =>
      simp only [List.flatten_cons, List.length_append] at hshort
      by_cases h : p.length ≤ chunkSize.toNat
      · simp only [Body.Read, h, if_true]
        omega
      · simp only [Body.Read, h, if_false, List.flatten_cons, List.length_append,
          List.length_drop, List.length_take]
        omega

theorem downloadLoop_spec (svc : S3) (O : List Byte) (chunkSize : Int) (hc : 0 < chunkSize)
    (hget : ∀ a b : Int, 16 ≤ a → a ≤ b → b < O.length →
      ∃ pieces, svc.getObject a b = some pieces ∧ exactBody O a b pieces)
    (fuel : Nat) (st : DownloadState) (hlo : 16 ≤ st.offset) (hhi : st.offset ≤ O.length)
    (hrem : st.remain = (O.length : Int) - st.offset)
    (hout : st.fileOut.offset ≤ st.fileOut.data.length)
    (hfuel : st.remain + 1 < fuel) :
    ∃ rs, contiguousRanges chunkSize O.length st.offset rs ∧
      (downloadLoop svc chunkSize fuel st).calls =
        st.calls ++ rs.map (fun r => Call.getObject r.1 r.2) ∧
      (downloadLoop svc chunkSize fuel st).status = Status.returned 0 ∧
      (downloadLoop svc chunkSize fuel st).dest =
        (st.fileOut.Write (xorAt (keystreamByte st.stream.block st.stream.iv) st.stream.used
          (O.drop st.offset.toNat))).1.data := by
  induction fuel generalizing st with
  | zero => exfalso; simp at hfuel; omega
  | succ fuel ih =>
    rw [downloadLoop]
    by_cases hpos : st.remain > 0
    · simp only [hpos, if_true]
      generalize hcb : (if chunkSize > st.remain then st.remain else chunkSize) = cb
      have hcbpos : 0 < cb := by rw [← hcb]; split <;> omega
      have hcble : cb ≤ st.remain := by rw [← hcb]; split <;> omega
      have hcbmin : cb = min chunkSize ((O.length : Int) - st.offset) := by
        rw [← hcb, ← hrem]; split <;> omega
      obtain ⟨pieces, hg, hfl, hne⟩ := hget st.offset (st.offset + cb - 1) hlo (by omega)
        (by omega)
      have hsl : slice O st.offset (st.offset + cb - 1) =
          (O.drop st.offset.toNat).take cb.toNat := by
        simp only [slice]; congr 2; omega
      rw [hsl] at hfl
      have hfl_len : pieces.flatten.length = cb.toNat := by
        rw [hfl, List.length_take, List.length_drop]; omega
      have hsplit : O.drop st.offset.toNat =
          pieces.flatten ++ O.drop (st.offset + cb).toNat := by
        have := drop_split O st.offset.toNat cb.toNat
        rw [← hfl, hfl_len] at this
        rw [this]; congr 2; omega
      obtain ⟨d1, d2, d3⟩ := drainLoop_spec chunkSize hc fuel
        { body := { pieces := pieces }, stream := st.stream, fileOut := st.fileOut,
          currentBuffer := cb } hne (by dsimp only; omega) hout (by dsimp only; omega)
      simp only [hg, d1]
      obtain ⟨rs, r1, r2, r3, r4⟩ := ih
        { stream := (drainLoop chunkSize fuel
            { body := { pieces := pieces }, stream := st.stream, fileOut := st.fileOut,
              currentBuffer := cb }).state.stream,
          fileOut := (drainLoop chunkSize fuel
            { body := { pieces := pieces }, stream := st.stream, fileOut := st.fileOut,
              currentBuffer := cb }).state.fileOut,
          remain := st.remain - cb, blockNum := st.blockNum + 1, offset := st.offset + cb,
          calls := st.calls ++ [Call.getObject st.offset (st.offset + cb - 1)] }
        (by dsimp only; omega) (by dsimp only; omega) (by dsimp only; omega)
        (by dsimp only; rw [d2]; exact Write_offset_le _ _ hout) (by dsimp only; omega)
      refine ⟨(st.offset, st.offset + cb - 1) :: rs, ?_, ?_, r3, ?_⟩
      · refine ⟨rfl, by omega, ?_, ?_⟩
        · dsimp only; omega
        · have e : st.offset + cb - 1 + 1 = st.offset + cb := by omega
          dsimp only; rw [e]; exact r1
      · rw [r2]; simp
      · rw [r4]
        dsimp only
        rw [d2, d3]
        dsimp only
        rw [Write_Write _ _ _ hout, ← xorAt_append, ← hsplit]
    · have h0 : st.remain = 0 := by omega
      have hd : O.drop st.offset.toNat = [] := by
        apply List.drop_of_length_le; omega
      simp only [hpos, if_false, hd, xorAt, Write_nil]
      refine ⟨[], ?_, by simp, trivial, trivial⟩
      simp only [contiguousRanges]; omega

theorem downloadLoop_calls (svc : S3) (chunkSize : Int) (fuel : Nat) (st : DownloadState) :
    ∃ l, (downloadLoop svc chunkSize fuel st).calls = st.calls ++ l := by
  induction fuel generalizing st with
  | zero => exact ⟨[], by simp [downloadLoop]⟩
  | succ fuel ih =>
    rw [downloadLoop]
    by_cases hpos : st.remain > 0
    · simp only [hpos, if_true]
      split
      · exact ⟨_, rfl⟩
      · split
        · exact ⟨_, rfl⟩
        · obtain ⟨l, hl⟩ := ih
            { stream := (drainLoop chunkSize fuel _).state.stream,
              fileOut := (drainLoop chunkSize fuel _).state.fileOut,
              remain := _, blockNum := _, offset := _, calls := _ }
          exact ⟨_ :: l, by rw [hl, List.append_assoc]; rfl⟩
    · simp only [hpos, if_false]
      exact ⟨[], by simp⟩

/-! ## `uploadPart` -/

theorem uploadPartLoop_fail (svc : S3) (body : List Byte) (pn fuel tryNum : Nat)
    (hf : 0 < fuel) (hsum : tryNum + fuel = maxRetries + 1)
    (hall : ∀ t, tryNum ≤ t → t ≤ maxRetries → svc.uploadPart pn t = none) :
    uploadPartLoop svc body pn fuel tryNum =
      { calls := List.replicate fuel (Call.uploadPart pn body none), part := none,
        err := true } := by
  induction fuel generalizing tryNum with
  | zero => omega
  | succ fuel ih =>
    have hle : tryNum ≤ maxRetries := by omega
    rw [uploadPartLoop]
    simp only [hle, if_true, hall tryNum (Nat.le_refl _) hle]
    by_cases hlast : tryNum = maxRetries
    · have h0 : fuel = 0 := by omega
      simp [hlast, h0]
    · have hih := ih (tryNum + 1) (by omega) (by omega)
        (fun t h1 h2 => hall t (by omega) h2)
      simp only [hlast, if_false, hih, List.replicate_succ]

theorem uploadPartLoop_ok (svc : S3) (body : List Byte) (pn fuel tryNum : Nat)
    (hone : 1 ≤ tryNum) (hsum : tryNum + fuel = maxRetries + 1)
    (hex : ∃ t, tryNum ≤ t ∧ t ≤ maxRetries ∧ (svc.uploadPart pn t).isSome = true) :
    ∃ k e t, uploadPartLoop svc body pn fuel tryNum =
      { calls := List.replicate k (Call.uploadPart pn body none) ++
          [Call.uploadPart pn body (some e)],
        part := some (pn, e), err := false } ∧
      1 ≤ t ∧ tryNum ≤ t ∧ t ≤ maxRetries ∧ svc.uploadPart pn t = some e := by
  induction fuel generalizing tryNum with
  | zero => obtain ⟨t, h1, h2, _⟩ := hex; omega
  | succ fuel ih =>
    obtain ⟨t, h1, h2, h3⟩ := hex
    have hle : tryNum ≤ maxRetries := by omega
    rw [uploadPartLoop]
    simp only [hle, if_true]
    cases hr : svc.uploadPart pn tryNum with
    | some e =>
      exact ⟨0, e, tryNum, by simp, hone, Nat.le_refl _, hle, hr⟩
    | none =>
      have hne : tryNum ≠ t := by
        intro h; subst h; rw [hr] at h3; simp at h3
      have hlast : tryNum ≠ maxRetries := by omega
      obtain ⟨k, e, t', hk, ht1, ht2, ht3, ht4⟩ := ih (tryNum + 1) (by omega) (by omega)
        ⟨t, by omega, h2, h3⟩
      refine ⟨k + 1, e, t', ?_, ht1, by omega, ht3, ht4⟩
      simp only [hlast, if_false, hk, List.replicate_succ, List.cons_append]

theorem uploadPart_fail (svc : S3) (body : List Byte) (pn : Nat)
    (hall : ∀ t, 1 ≤ t → t ≤ maxRetries → svc.uploadPart pn t = none) :
    uploadPart svc body pn =
      { calls := List.replicate maxRetries (Call.uploadPart pn body none), part := none,
        err := true } :=
  uploadPartLoop_fail svc body pn maxRetries 1 (by decide) (by decide) hall

theorem uploadPart_ok (svc : S3) (body : List Byte) (pn : Nat)
    (hex : ∃ t, 1 ≤ t ∧ t ≤ maxRetries ∧ (svc.uploadPart pn t).isSome = true) :
    ∃ k e t, uploadPart svc body pn =
      { calls := List.replicate k (Call.uploadPart pn body none) ++
          [Call.uploadPart pn body (some e)],
        part := some (pn, e), err := false } ∧
      1 ≤ t ∧ t ≤ maxRetries ∧ svc.uploadPart pn t = some e := by
  obtain ⟨k, e, t, h, h1, _, h3, h4⟩ := uploadPartLoop_ok svc body pn maxRetries 1
    (by decide) (by decide) hex
  exact ⟨k, e, t, h, h1, h3, h4⟩

theorem xorAt_take (ks : Nat → Byte) (p n : Nat) (l : List Byte) :
    xorAt ks p (l.take n) = (xorAt ks p l).take n := by
  induction l generalizing p n with
  | nil => simp [xorAt]
  | cons b bs ih =>
    cases n with
    | zero => simp [xorAt]
    | succ n => simp [xorAt, ih]

theorem xorAt_drop (ks : Nat → Byte) (p n : Nat) (l : List Byte) :
    xorAt ks (p + n) (l.drop n) = (xorAt ks p l).drop n := by
  induction l generalizing p n with
  | nil => simp [xorAt]
  | cons b bs ih =>
    cases n with
    | zero => simp [xorAt]
    | succ n =>
      have e : p + (n + 1) = p + 1 + n := by omega
      simp only [List.drop_succ_cons, xorAt, e, ih]

theorem Read_eq (f : ReadFile) (n : Nat) (h : n = 0 ∨ f.offset < f.data.length) :
    f.Read n = { file := { data := f.data,
                           offset := f.offset + ((f.data.drop f.offset).take n).length },
                 bytes := (f.data.drop f.offset).take n, eof := false } := by
  obtain ⟨data, off⟩ := f
  by_cases hn : n = 0
  · simp [ReadFile.Read, hn]
  · have h2 : ¬ data.length ≤ off := by
      rcases h with h | h
      · exact absurd h hn
      · simpa using h
    simp [ReadFile.Read, hn, h2]

/-! ## The loop of `UploadAndEncrypt` -/

theorem uploadLoop_step (svc : S3) (block : List Byte → List Byte) (P iv : List Byte) (c : Int)
    (hiv : iv.length = 16) (hc : 16 ≤ c) (fuel : Nat) (st : UploadState) (w : Nat)
    (hinv : UploadInv block P iv c st w) (hpos : st.remain > 0) :
    ∃ st' : UploadState, ∃ cb : Nat,
      (cb : Int) = min c st.remain ∧
      UploadInv block P iv c st' (w + cb) ∧
      st'.blockNum = st.blockNum + 1 ∧
      st'.completedParts = st.completedParts ++
        [(uploadPart svc (((wire block iv P).drop w).take cb) st.blockNum).part] ∧
      st'.calls = st.calls ++
        (uploadPart svc (((wire block iv P).drop w).take cb) st.blockNum).calls ∧
      uploadLoop svc iv c (fuel + 1) st =
        if (uploadPart svc (((wire block iv P).drop w).take cb) st.blockNum).err then
          { status := if svc.abortMultipartUpload then Status.returned 1 else Status.exited 1,
            calls := st.calls ++
              (uploadPart svc (((wire block iv P).drop w).take cb) st.blockNum).calls ++
              [Call.abortMultipartUpload] }
        else uploadLoop svc iv c fuel st' := by
  obtain ⟨⟨data, off⟩, ⟨blk, iv', used⟩, remain, blockNum, parts, calls⟩ := st
  obtain ⟨hdata, hblk, hiv', hrem, hcase⟩ := hinv
  dsimp only at hdata hblk hiv' hrem hcase hpos
  subst hdata hblk hiv'
  rcases hcase with ⟨hb, hw, hoff, hused, hlt⟩ | ⟨hb, hw, hoff, hused, hle⟩
  · subst hb hw hoff hused
    have hcN : (c.toNat : Int) = c := Int.toNat_of_nonneg (by omega)
    have hcb : (if c > remain then remain else c) = c := by rw [if_neg]; omega
    have hread := Read_eq ⟨data, 0⟩ (c.toNat - BlockSize)
      (by dsimp only [BlockSize]; omega)
    have hbytes : (data.drop 0).take (c.toNat - BlockSize) = data.take (c.toNat - 16) := by
      simp [BlockSize]
    have hbl : (data.take (c.toNat - 16)).length = c.toNat - 16 := by
      rw [List.length_take]; omega
    dsimp only at hread
    rw [hbytes, hbl] at hread
    simp only [BlockSize] at hread
    have hpay : (iv' ++ xorAt (keystreamByte blk iv') 0 ((data.take (c.toNat - 16)).take
        (c.toNat - 16))).take c.toNat = ((wire blk iv' data).drop 0).take c.toNat := by
      rw [List.take_take, Nat.min_self, xorAt_take, List.drop_zero, wire, ctrCrypt,
        List.take_append_eq_append_take, List.take_append_eq_append_take, hiv, List.take_take,
        Nat.min_self]
    refine ⟨{ fileIn := ⟨data, c.toNat - 16⟩, stream := ⟨blk, iv', c.toNat - 16⟩,
              remain := remain - c, blockNum := 2,
              completedParts := parts ++
                [(uploadPart svc (((wire blk iv' data).drop 0).take c.toNat) 1).part],
              calls := calls ++
                (uploadPart svc (((wire blk iv' data).drop 0).take c.toNat) 1).calls },
            c.toNat, ?_, ?_, rfl, rfl, rfl, ?_⟩
    · dsimp only; omega
    · refine ⟨rfl, rfl, rfl, ?_, Or.inr ⟨Nat.le_refl 2, ?_, ?_, ?_, ?_⟩⟩ <;> dsimp only <;> omega
    · rw [uploadLoop]
      simp only [hpos, if_true, hcb, hread, BlockSize]
      have h1 : ¬ (True ∧ c < ((16 : Nat) : Int)) := by simp; omega
      have h2 : ((c.toNat - 16 : Nat) : Int) + ((16 : Nat) : Int) = c := by omega
      simp only [CTRStream.XORKeyStream, hpay]
      simp only [h1, h2, if_false, ne_eq, not_true_eq_false, Bool.false_eq_true,
        List.take_take, Nat.min_self, hbl, Nat.zero_add, abortMultipartUpload]
  · have hu : used = off := by omega
    subst hu hoff
    have hne1 : blockNum ≠ 1 := by omega
    have hcN : (c.toNat : Int) = c := Int.toNat_of_nonneg (by omega)
    generalize hcbdef : (if c > remain then remain else c) = cb
    have hcbpos : 0 < cb := by rw [← hcbdef]; split <;> omega
    have hcbmin : cb = min c remain := by rw [← hcbdef]; split <;> omega
    have hread := Read_eq ⟨data, used⟩ c.toNat (Or.inr (by dsimp only; omega))
    have hbl : ((data.drop used).take c.toNat).length = cb.toNat := by
      rw [List.length_take, List.length_drop]; omega
    dsimp only at hread
    rw [hbl] at hread
    have hmin : min cb.toNat c.toNat = cb.toNat := by omega
    have hpay : (xorAt (keystreamByte blk iv') used
        (((data.drop used).take c.toNat).take cb.toNat)).take cb.toNat =
        ((wire blk iv' data).drop (used + 16)).take cb.toNat := by
      have hivd : iv'.drop (used + 16) = [] := List.drop_of_length_le (by omega)
      rw [List.take_take, hmin, xorAt_take, List.take_take, Nat.min_self, wire, ctrCrypt,
        List.drop_append_eq_append_drop, hivd, hiv, List.nil_append, Nat.add_sub_cancel,
        ← xorAt_drop, Nat.zero_add]
    refine ⟨{ fileIn := ⟨data, used + cb.toNat⟩, stream := ⟨blk, iv', used + cb.toNat⟩,
              remain := remain - cb, blockNum := blockNum + 1,
              completedParts := parts ++
                [(uploadPart svc (((wire blk iv' data).drop (used + 16)).take cb.toNat)
                  blockNum).part],
              calls := calls ++
                (uploadPart svc (((wire blk iv' data).drop (used + 16)).take cb.toNat)
                  blockNum).calls },
            cb.toNat, ?_, ?_, rfl, rfl, rfl, ?_⟩
    · dsimp only; omega
    · refine ⟨rfl, rfl, rfl, ?_, Or.inr ⟨?_, ?_, ?_, ?_, ?_⟩⟩ <;> dsimp only <;> omega
    · rw [uploadLoop]
      simp only [hpos, if_true, hcbdef, hread, hne1, false_and, if_false]
      have h2 : ((cb.toNat : Nat) : Int) = cb := Int.toNat_of_nonneg (by omega)
      simp only [CTRStream.XORKeyStream, hpay]
      have hmin2 : min cb.toNat (data.length - used) = cb.toNat := by omega
      simp only [h2, if_false, ne_eq, not_true_eq_false, Bool.false_eq_true,
        List.take_take, hmin, hbl, List.length_take, List.length_drop, hmin2,
        abortMultipartUpload]

theorem partsLeft_pos_step (remain c : Int) (hc : 0 < c) (hr : 0 < remain) :
    partsLeft remain c = partsLeft (remain - min c remain) c + 1 := by
  unfold partsLeft
  have hC : 0 < c.toNat := by omega
  have e1 : remain.toNat + c.toNat - 1 = (remain.toNat - 1) + c.toNat := by omega
  rw [e1, Nat.add_div_right _ hC]
  congr 1
  by_cases h : remain ≤ c
  · have e2 : (remain - min c remain).toNat + c.toNat - 1 = c.toNat - 1 := by omega
    rw [e2, Nat.div_eq_of_lt (by omega), Nat.div_eq_of_lt (by omega)]
  · have e2 : (remain - min c remain).toNat + c.toNat - 1 = remain.toNat - 1 := by omega
    rw [e2]

theorem partsLeft_zero (c : Int) (hc : 0 < c) : partsLeft 0 c = 0 := by
  unfold partsLeft
  apply Nat.div_eq_of_lt
  simp only [Int.toNat_zero]
  omega

theorem wire_length (block : List Byte → List Byte) (iv P : List Byte) :
    (wire block iv P).length = iv.length + P.length := by
  simp [wire, ctrCrypt, xorAt_length]

theorem filterMap_record_attempts (k pn : Nat) (body : List Byte) (e : ETag) :
    (List.replicate k (Call.uploadPart pn body none) ++
      [Call.uploadPart pn body (some e)]).filterMap Call.acceptedRecord = [(pn, e)] := by
  induction k with
  | zero => rfl
  | succ k _ => simp [List.replicate_succ, Call.acceptedRecord]

theorem filterMap_payload_attempts (k pn : Nat) (body : List Byte) (e : ETag) :
    (List.replicate k (Call.uploadPart pn body none) ++
      [Call.uploadPart pn body (some e)]).filterMap Call.acceptedPayload = [body] := by
  induction k with
  | zero => rfl
  | succ k _ => simp [List.replicate_succ, Call.acceptedPayload]

theorem UploadInv_remain_nonneg (block : List Byte → List Byte) (P iv : List Byte) (c : Int)
    (st : UploadState) (w : Nat) (hinv : UploadInv block P iv c st w) : 0 ≤ st.remain := by
  obtain ⟨_, _, _, hrem, hcase⟩ := hinv
  rcases hcase with ⟨_, hw, _, _, _⟩ | ⟨_, _, _, _, hle⟩ <;> omega

theorem uploadLoop_all_ok (svc : S3) (block : List Byte → List Byte) (P iv : List Byte)
    (c : Int) (hiv : iv.length = 16) (hc : 16 ≤ c) (fuel : Nat) (st : UploadState) (w : Nat)
    (hinv : UploadInv block P iv c st w) (hfuel : st.remain < fuel)
    (hok : ∀ i, st.blockNum ≤ i → i < st.blockNum + partsLeft st.remain c →
      ∃ t, 1 ≤ t ∧ t ≤ maxRetries ∧ (svc.uploadPart i t).isSome = true) :
    ∃ log : List Call,
      (uploadLoop svc iv c fuel st).calls = st.calls ++ log ++
        [Call.completeMultipartUpload
          (st.completedParts ++ (log.filterMap Call.acceptedRecord).map some)] ∧
      (uploadLoop svc iv c fuel st).status =
        (if svc.completeMultipartUpload
            (st.completedParts ++ (log.filterMap Call.acceptedRecord).map some)
          then Status.returned 0 else Status.exited 1) ∧
      (∀ call ∈ log, call.isUploadPart = true) ∧
      (log.filterMap Call.acceptedRecord).map Prod.fst =
        List.range' st.blockNum (partsLeft st.remain c) ∧
      (∀ k body e, Call.uploadPart k body (some e) ∈ log →
        ∃ t, 1 ≤ t ∧ t ≤ maxRetries ∧ svc.uploadPart k t = some e) ∧
      (log.filterMap Call.acceptedPayload).flatten = (wire block iv P).drop w ∧
      (st.remain > 0 → (log.filterMap Call.acceptedPayload).head? =
        some (((wire block iv P).drop w).take (min c st.remain).toNat)) := by
  induction fuel generalizing st w with
  | zero =>
    have := UploadInv_remain_nonneg block P iv c st w hinv
    exfalso; simp at hfuel; omega
  | succ fuel ih =>
    by_cases hpos : st.remain > 0
    · obtain ⟨st', cb, hcb, hinv', hbn, hparts, hcalls, hstep⟩ :=
        uploadLoop_step svc block P iv c hiv hc fuel st w hinv hpos
      have hpl := partsLeft_pos_step st.remain c (by omega) hpos
      obtain ⟨k, e, t, hup, ht1, ht2, ht3⟩ := uploadPart_ok svc
        (((wire block iv P).drop w).take cb) st.blockNum
        (hok st.blockNum (Nat.le_refl _) (by omega))
      have hrem' : st'.remain = st.remain - min c st.remain := by
        obtain ⟨_, _, _, h1, _⟩ := hinv
        obtain ⟨_, _, _, h2, _⟩ := hinv'
        rw [← hcb, h2, h1]; push_cast; omega
      rw [hup] at hparts hcalls hstep
      simp only [Bool.false_eq_true, if_false] at hstep
      obtain ⟨log', l1, l2, l3, l4, l5, l6, _⟩ := ih st' (w + cb) hinv' (by omega)
        (by
          intro i hi1 hi2
          rw [hbn] at hi1
          rw [hbn, hrem'] at hi2
          exact hok i (by omega) (by omega))
      have hrec := filterMap_record_attempts k st.blockNum
        (((wire block iv P).drop w).take cb) e
      have hpay := filterMap_payload_attempts k st.blockNum
        (((wire block iv P).drop w).take cb) e
      refine ⟨(List.replicate k (Call.uploadPart st.blockNum
          (((wire block iv P).drop w).take cb) none) ++
          [Call.uploadPart st.blockNum (((wire block iv P).drop w).take cb) (some e)]) ++ log',
        ?_, ?_, ?_, ?_, ?_, ?_, ?_⟩
      · rw [hstep, l1, hcalls, hparts, List.filterMap_append, hrec]
        simp only [List.append_assoc, List.map_append, List.map_cons, List.map_nil,
          List.singleton_append]
      · rw [hstep, l2, hparts, List.filterMap_append, hrec]
        simp only [List.append_assoc, List.map_append, List.map_cons, List.map_nil,
          List.singleton_append]
      · intro call h
        rcases List.mem_append.1 h with h | h
        · rcases List.mem_append.1 h with h | h
          · rw [List.eq_of_mem_replicate h]; rfl
          · rw [List.mem_singleton.1 h]; rfl
        · exact l3 call h
      · rw [List.filterMap_append, hrec, List.map_append, l4, hbn, hrem', hpl]
        simp [List.range'_succ]
      · intro k' body e' h
        rcases List.mem_append.1 h with h | h
        · rcases List.mem_append.1 h with h | h
          · have := List.eq_of_mem_replicate h; simp at this
          · have := List.mem_singleton.1 h
            simp only [Call.uploadPart.injEq, Option.some.injEq] at this
            obtain ⟨h1, _, h3⟩ := this
            subst h1 h3
            exact ⟨t, ht1, ht2, ht3⟩
        · exact l5 k' body e' h
      · rw [List.filterMap_append, hpay, List.flatten_append, l6]
        simp only [List.flatten_cons, List.flatten_nil, List.append_nil]
        rw [← List.drop_drop, List.take_append_drop]
      · intro _
        rw [List.filterMap_append, hpay]
        simp only [List.singleton_append, List.head?_cons]
        rw [← hcb]; rfl
    · have h0 : st.remain = 0 := by
        have := UploadInv_remain_nonneg block P iv c st w hinv; omega
      have hw : (wire block iv P).drop w = [] := by
        apply List.drop_of_length_le
        obtain ⟨_, _, _, hrem, _⟩ := hinv
        rw [wire_length, hiv]; omega
      refine ⟨[], ?_, ?_, ?_, ?_, ?_, ?_, ?_⟩
      · rw [uploadLoop]; simp [hpos, completeMultipartUpload]
      · rw [uploadLoop]; simp [hpos, completeMultipartUpload]
      · intro call h; simp at h
      · rw [h0, partsLeft_zero c (by omega)]; rfl
      · intro k body e h; simp at h
      · rw [hw]; rfl
      · intro h; exact absurd h hpos

theorem countP_attempts_of (k pn N : Nat) (body : List Byte) (e : ETag) (h : pn ≠ N) :
    (List.replicate k (Call.uploadPart pn body none) ++
      [Call.uploadPart pn body (some e)]).countP (Call.isAttemptOf N) = 0 := by
  rw [List.countP_eq_zero]
  intro call hm
  rcases List.mem_append.1 hm with hm | hm
  · rw [List.eq_of_mem_replicate hm]; simp [Call.isAttemptOf, h]
  · rw [List.mem_singleton.1 hm]; simp [Call.isAttemptOf, h]

theorem countP_attempts_above (k pn N : Nat) (body : List Byte) (e : ETag) (h : pn ≤ N) :
    (List.replicate k (Call.uploadPart pn body none) ++
      [Call.uploadPart pn body (some e)]).countP (Call.isAttemptAbove N) = 0 := by
  rw [List.countP_eq_zero]
  intro call hm
  rcases List.mem_append.1 hm with hm | hm
  · rw [List.eq_of_mem_replicate hm]; simp [Call.isAttemptAbove, h]
  · rw [List.mem_singleton.1 hm]; simp [Call.isAttemptAbove, h]

theorem uploadLoop_fail_at (svc : S3) (block : List Byte → List Byte) (P iv : List Byte)
    (c : Int) (hiv : iv.length = 16) (hc : 16 ≤ c) (N fuel : Nat) (st : UploadState) (w : Nat)
    (hinv : UploadInv block P iv c st w) (hb : st.blockNum ≤ N)
    (hN : N < st.blockNum + partsLeft st.remain c) (hfuel : N - st.blockNum < fuel)
    (hok : ∀ i, st.blockNum ≤ i → i < N →
      ∃ t, 1 ≤ t ∧ t ≤ maxRetries ∧ (svc.uploadPart i t).isSome = true)
    (hfail : ∀ t, 1 ≤ t → t ≤ maxRetries → svc.uploadPart N t = none) :
    ∃ log : List Call,
      (uploadLoop svc iv c fuel st).calls = st.calls ++ log ++ [Call.abortMultipartUpload] ∧
      (uploadLoop svc iv c fuel st).status =
        (if svc.abortMultipartUpload then Status.returned 1 else Status.exited 1) ∧
      (∀ call ∈ log, call.isUploadPart = true) ∧
      log.countP (Call.isAttemptOf N) = maxRetries ∧
      log.countP (Call.isAttemptAbove N) = 0 := by
  induction fuel generalizing st w with
  | zero => omega
  | succ fuel ih =>
    have hpos : st.remain > 0 := by
      by_contra hn
      have h0 : st.remain = 0 := by
        have := UploadInv_remain_nonneg block P iv c st w hinv; omega
      rw [h0, partsLeft_zero c (by omega)] at hN
      omega
    obtain ⟨st', cb, hcb, hinv', hbn, hparts, hcalls, hstep⟩ :=
      uploadLoop_step svc block P iv c hiv hc fuel st w hinv hpos
    have hpl := partsLeft_pos_step st.remain c (by omega) hpos
    have hrem' : st'.remain = st.remain - min c st.remain := by
      obtain ⟨_, _, _, h1, _⟩ := hinv
      obtain ⟨_, _, _, h2, _⟩ := hinv'
      rw [← hcb, h2, h1]; push_cast; omega
    by_cases hbN : st.blockNum = N
    · have hup := uploadPart_fail svc (((wire block iv P).drop w).take cb) st.blockNum
        (by rw [hbN]; exact hfail)
      rw [hup] at hstep
      simp only [if_true] at hstep
      refine ⟨List.replicate maxRetries (Call.uploadPart st.blockNum
        (((wire block iv P).drop w).take cb) none), ?_, ?_, ?_, ?_, ?_⟩
      · rw [hstep]
      · rw [hstep]
      · intro call hm; rw [List.eq_of_mem_replicate hm]; rfl
      · rw [List.countP_replicate]; simp [Call.isAttemptOf, hbN]
      · rw [List.countP_replicate]; simp [Call.isAttemptAbove, hbN]
    · obtain ⟨k, e, t, hup, _, _, _⟩ := uploadPart_ok svc
        (((wire block iv P).drop w).take cb) st.blockNum
        (hok st.blockNum (Nat.le_refl _) (by omega))
      rw [hup] at hparts hcalls hstep
      simp only [Bool.false_eq_true, if_false] at hstep
      obtain ⟨log', l1, l2, l3, l4, l5⟩ := ih st' (w + cb) hinv' (by omega)
        (by rw [hbn, hrem']; omega) (by omega)
        (fun i hi1 hi2 => hok i (by omega) hi2)
      refine ⟨(List.replicate k (Call.uploadPart st.blockNum
          (((wire block iv P).drop w).take cb) none) ++
          [Call.uploadPart st.blockNum (((wire block iv P).drop w).take cb) (some e)]) ++ log',
        ?_, ?_, ?_, ?_, ?_⟩
      · rw [hstep, l1, hcalls]
        simp only [List.append_assoc]
      · rw [hstep, l2]
      · intro call h
        rcases List.mem_append.1 h with h | h
        · rcases List.mem_append.1 h with h | h
          · rw [List.eq_of_mem_replicate h]; rfl
          · rw [List.mem_singleton.1 h]; rfl
        · exact l3 call h
      · rw [List.countP_append, countP_attempts_of _ _ _ _ _ hbN, l4, Nat.zero_add]
      · rw [List.countP_append, countP_attempts_above _ _ _ _ _ hb, l5]

/-! ## Local encryption and decryption -/

/-- C1 as stated fails: `-chunk 1099511627776` passes the check of `main` and gives the
positive chunk size `2^50`; encrypting the one-byte file `[1]` with it writes the IV and then
panics in `make([]byte, chunkSize)`, so the destination holds the 16 IV bytes only, and
decrypting that artifact (chunk size 1024) leaves an empty file, not `[1]`. -/
theorem local_round_trip_huge_chunk :
    chunkFlagAccepted 1099511627776 = true ∧ chunkOfFlag 1099511627776 = 2 ^ 50 ∧
    (0 : Int) < 2 ^ 50 ∧
    (LocalEncryptDecrypt [1] none toyBlock (2 ^ 50) true zeroIV maxAlloc 2).status =
      Status.panicked ∧
    (LocalEncryptDecrypt [1] none toyBlock (2 ^ 50) true zeroIV maxAlloc 2).dest = zeroIV ∧
    (LocalEncryptDecrypt (LocalEncryptDecrypt [1] none toyBlock (2 ^ 50) true zeroIV maxAlloc
      2).dest none toyBlock 1024 false [] maxAlloc 2).dest ≠ [1] := by
  decide

/-- C1 amended. Local round trip: encrypting `P` with chunk size `c1` into an initially empty
destination and decrypting the artifact with chunk size `c2` into an initially empty
destination returns 0 both times and leaves exactly `P`, for every block cipher, every
16-byte IV and all positive chunk sizes that `make` serves in the run (`c1 <= a1`,
`c2 <= a2`, the allocation limits of the two runs); the fuel bounds say only that the loops
are given enough iterations. -/
theorem local_round_trip (block : List Byte → List Byte) (P iv rnd : List Byte)
    (d1 d2 : Option (List Byte)) (c1 c2 a1 a2 : Int) (f1 f2 : Nat)
    (hiv : iv.length = 16) (hc1 : 0 < c1) (hc2 : 0 < c2) (ha1 : c1 ≤ a1) (ha2 : c2 ≤ a2)
    (hd1 : d1.getD [] = []) (hd2 : d2.getD [] = [])
    (hf1 : P.length < f1) (hf2 : P.length < f2) :
    (LocalEncryptDecrypt P d1 block c1 true iv a1 f1).status = Status.returned 0 ∧
    (LocalEncryptDecrypt (LocalEncryptDecrypt P d1 block c1 true iv a1 f1).dest d2 block c2
      false rnd a2 f2).status = Status.returned 0 ∧
    (LocalEncryptDecrypt (LocalEncryptDecrypt P d1 block c1 true iv a1 f1).dest d2 block c2
      false rnd a2 f2).dest = P := by
  obtain ⟨e1, e2⟩ := encrypt_dest block P iv d1 c1 a1 hc1 ha1 f1 hf1
  rw [hd1, List.drop_nil, List.append_nil] at e2
  have hlen : (iv ++ ctrCrypt block iv P).length = 16 + P.length := by
    simp [ctrCrypt, xorAt_length, hiv]
  obtain ⟨e3, e4⟩ := decrypt_dest block (iv ++ ctrCrypt block iv P) rnd d2 c2 a2 hc2 ha2
    (by omega) f2 (by omega)
  have htake : (iv ++ ctrCrypt block iv P).take 16 = iv := by
    rw [List.take_append_of_le_length (by omega), List.take_of_length_le (by omega)]
  have hdrop : (iv ++ ctrCrypt block iv P).drop 16 = ctrCrypt block iv P := by
    rw [← hiv, List.drop_left]
  rw [e2]
  refine ⟨e1, e3, ?_⟩
  rw [e4, hd2, List.drop_nil, List.append_nil, htake, hdrop]
  exact xorAt_involutive _ _ _

/-- Witness of the amended C1: a plaintext of 20 bytes, encrypted with chunk size 8 and
decrypted with chunk size 3. -/
theorem local_round_trip_witness :
    (LocalEncryptDecrypt (LocalEncryptDecrypt (List.range 20) none toyBlock 8 true zeroIV
      maxAlloc 21).dest (some []) toyBlock 3 false [] maxAlloc 21).dest = List.range 20 :=
  (local_round_trip toyBlock (List.range 20) zeroIV [] none (some []) 8 3 maxAlloc maxAlloc
    21 21 (by decide) (by decide) (by decide) (by decide) (by decide) rfl rfl (by decide)
    (by decide)).2.2

/-- C2 as stated fails: with the positive chunk size `2^50` (`-chunk 1099511627776`) the
encrypt run writes the IV and panics in `make([]byte, chunkSize)`; the destination is the IV
alone, which is neither `IV ++ CTR(P)` nor what chunk size 16 produces. -/
theorem encrypt_huge_chunk_differs :
    (0 : Int) < 2 ^ 50 ∧
    (LocalEncryptDecrypt [1] (some []) toyBlock (2 ^ 50) true zeroIV maxAlloc 2).status =
      Status.panicked ∧
    (LocalEncryptDecrypt [1] (some []) toyBlock (2 ^ 50) true zeroIV maxAlloc 2).dest ≠
      zeroIV ++ ctrCrypt toyBlock zeroIV [1] ∧
    (LocalEncryptDecrypt [1] (some []) toyBlock (2 ^ 50) true zeroIV maxAlloc 2).dest ≠
      (LocalEncryptDecrypt [1] (some []) toyBlock 16 true zeroIV maxAlloc 2).dest := by
  decide

/-- C2 amended. Chunk-size invariance of local encryption: with the cipher and the IV fixed,
every positive chunk size that `make` serves in the run (`c <= a`, the allocation limit)
leaves in an initially empty destination exactly the IV followed by the CTR transform of `P`
taken in one piece from key stream position 0, so two such chunk sizes give the same
bytes. -/
theorem encrypt_chunk_size_invariant (block : List Byte → List Byte) (P iv : List Byte)
    (d d' : Option (List Byte)) (c c' a a' : Int) (f f' : Nat)
    (hc : 0 < c) (hc' : 0 < c') (ha : c ≤ a) (ha' : c' ≤ a')
    (hd : d.getD [] = []) (hd' : d'.getD [] = [])
    (hf : P.length < f) (hf' : P.length < f') :
    (LocalEncryptDecrypt P d block c true iv a f).status = Status.returned 0 ∧
    (LocalEncryptDecrypt P d block c true iv a f).dest = iv ++ ctrCrypt block iv P ∧
    (LocalEncryptDecrypt P d' block c' true iv a' f').dest =
      (LocalEncryptDecrypt P d block c true iv a f).dest := by
  obtain ⟨e1, e2⟩ := encrypt_dest block P iv d c a hc ha f hf
  obtain ⟨_, e4⟩ := encrypt_dest block P iv d' c' a' hc' ha' f' hf'
  rw [hd, List.drop_nil, List.append_nil] at e2
  rw [hd', List.drop_nil, List.append_nil] at e4
  exact ⟨e1, e2, by rw [e2, e4]⟩

/-- Witness of the amended C2: 40 bytes encrypted with chunk sizes 16 and 17. -/
theorem encrypt_chunk_size_invariant_witness :
    (LocalEncryptDecrypt (List.range 40) none toyBlock 17 true zeroIV maxAlloc 41).dest =
      (LocalEncryptDecrypt (List.range 40) (some []) toyBlock 16 true zeroIV maxAlloc
        41).dest :=
  (encrypt_chunk_size_invariant toyBlock (List.range 40) zeroIV (some []) none 16 17
    maxAlloc maxAlloc 41 41 (by decide) (by decide) (by decide) (by decide) rfl rfl
    (by decide) (by decide)).2.2

/-- C3, the code at the failing input: encrypting the one-byte file `[1]` onto an existing
destination of 20 bytes returns 0 and leaves a file of 20 bytes, not of `1 + 16 = 17`: the
IV, the one ciphertext byte and the last three bytes of the old content. -/
theorem encrypt_keeps_stale_tail :
    (LocalEncryptDecrypt [1] (some (List.replicate 20 9)) toyBlock 1024 true zeroIV maxAlloc
      2).status = Status.returned 0 ∧
    (LocalEncryptDecrypt [1] (some (List.replicate 20 9)) toyBlock 1024 true zeroIV maxAlloc
      2).dest = zeroIV ++ ctrCrypt toyBlock zeroIV [1] ++ [9, 9, 9] ∧
    (LocalEncryptDecrypt [1] (some (List.replicate 20 9)) toyBlock 1024 true zeroIV maxAlloc
      2).dest.length = 20 := by
  decide

/-- C8, the code at the failing input: `-chunk 0` passes the check of `main`, gives
`chunkSize = 0`, and on a one-byte source the transfer loop of `LocalEncryptDecrypt` never
reaches its exit, whatever the number of iterations allowed. -/
theorem zero_chunk_never_ends :
    chunkFlagAccepted 0 = true ∧ chunkOfFlag 0 = 0 ∧
    ∀ fuel : Nat, (LocalEncryptDecrypt [1] none toyBlock (chunkOfFlag 0) true zeroIV maxAlloc
      fuel).status = Status.running := by
  refine ⟨by decide, by decide, ?_⟩
  intro fuel
  have h0 : chunkOfFlag 0 = 0 := by decide
  have hm : makeFails maxAlloc 0 = false := by decide
  rw [h0]
  simp only [LocalEncryptDecrypt, localTransfer, if_true, hm, if_false, Bool.true_eq_false,
    Bool.false_eq_true]
  exact localLoop_zero_chunk fuel _ (by decide)

/-- For every chunk size above 0 that `make` serves, the transfer loop of
`LocalEncryptDecrypt` ends, with `remain` never negative at the loop condition and 0 at the
exit (encrypt direction). -/
theorem positive_chunk_terminates (block : List Byte → List Byte) (P iv : List Byte)
    (dest : Option (List Byte)) (c allocLimit : Int) (hc : 0 < c) (hcl : c ≤ allocLimit)
    (fuel : Nat) (hf : P.length < fuel) :
    (LocalEncryptDecrypt P dest block c true iv allocLimit fuel).status = Status.returned 0 ∧
    (LocalEncryptDecrypt P dest block c true iv allocLimit fuel).remain = 0 ∧
    (∀ r ∈ (LocalEncryptDecrypt P dest block c true iv allocLimit fuel).seen, 0 ≤ r) ∧
    (LocalEncryptDecrypt P dest block c true iv allocLimit fuel).seen.getLast? = some 0 := by
  have hnc := makeFails_eq_false allocLimit c (by omega) hcl
  obtain ⟨h1, _, h3, tail, h4, h5, h6⟩ := localLoop_spec c hc fuel
    { fileIn := { data := P, offset := 0 }, fileOut := ((openDest dest).Write iv).1,
      stream := NewCTR block iv, remain := (P.length : Int), blockNum := 0, seen := [] }
    (by simp) (by simp) (Write_offset_le _ _ (by simp [openDest])) (by simpa using hf)
  simp only [LocalEncryptDecrypt, localTransfer, hnc, if_true, if_false, Bool.true_eq_false,
    Bool.false_eq_true]
  rw [List.nil_append] at h4
  exact ⟨h1, h3, by rw [h4]; exact h5, by rw [h4]; exact h6⟩

/-! ## Download -/

theorem exactBody_single (O : List Byte) (a b : Int) (h0 : 0 ≤ a) (hab : a ≤ b)
    (hb : b < O.length) : exactBody O a b [slice O a b] := by
  refine ⟨by simp, ?_⟩
  intro p hp
  rw [List.mem_singleton.1 hp]
  intro hnil
  have := congrArg List.length hnil
  simp only [slice, List.length_take, List.length_drop, List.length_nil] at this
  omega

/-- C10. Minimum-size rejection: when the metadata query declares a size `s < 16`,
`DownloadAndDecrypt` exits with status 1 having made the `HeadObject` call and no `GetObject`
call at all; when `s >= 16` the size check lets the run through to the IV request
`bytes=0-15`, which is the second call made. -/
theorem download_minimum_size (dest : Option (List Byte)) (block : List Byte → List Byte)
    (c : Int) (svc : S3) (allocLimit : Int) (fuel : Nat) (s : Int)
    (hs : svc.headObject = some s) :
    (s < 16 →
      (DownloadAndDecrypt dest block c svc allocLimit fuel).status = Status.exited 1 ∧
      (DownloadAndDecrypt dest block c svc allocLimit fuel).calls = [Call.headObject] ∧
      (DownloadAndDecrypt dest block c svc allocLimit fuel).calls.countP Call.isGet = 0) ∧
    (16 ≤ s →
      (DownloadAndDecrypt dest block c svc allocLimit fuel).calls.take 2 =
        [Call.headObject, Call.getObject 0 15]) := by
  constructor
  · intro h
    have h' : s < ((BlockSize : Nat) : Int) := by simpa [BlockSize] using h
    simp only [DownloadAndDecrypt, hs, h', if_true]
    exact ⟨trivial, trivial, rfl⟩
  · intro h
    have h' : ¬ s < ((BlockSize : Nat) : Int) := by simpa [BlockSize] using h
    simp only [DownloadAndDecrypt, hs, h', if_false]
    split
    · rfl
    · split
      · rfl
      · split
        · rfl
        · obtain ⟨l, hl⟩ := downloadLoop_calls svc c fuel
            { stream := NewCTR block (Body.Read _ BlockSize).2, fileOut := openDest dest,
              remain := s - 16, blockNum := 0, offset := 16,
              calls := [Call.headObject, Call.getObject 0 15] }
          rw [hl]; rfl

/-- Witness of C10: a declared size of 15 bytes. -/
theorem download_minimum_size_witness :
    (DownloadAndDecrypt none toyBlock 1024 smallStore maxAlloc 5).status = Status.exited 1 ∧
    (DownloadAndDecrypt none toyBlock 1024 smallStore maxAlloc 5).calls =
      [Call.headObject] ∧
    (DownloadAndDecrypt none toyBlock 1024 smallStore maxAlloc 5).calls.countP
      Call.isGet = 0 :=
  (download_minimum_size none toyBlock 1024 smallStore maxAlloc 5 15 rfl).1 (by decide)

/-- C7, what the code does instead: when the object has at least 17 bytes, the IV request is
answered in full, the chunk buffers are made (`c <= allocLimit`) and the body of the first
chunk request delivers fewer bytes than the requested range length, `DownloadAndDecrypt`
neither fails nor returns: for every number of iterations allowed the run is still inside
its loops. -/
theorem download_short_body_never_ends (dest : Option (List Byte))
    (block : List Byte → List Byte) (c : Int) (svc : S3) (allocLimit : Int) (s : Int)
    (iv : List Byte) (pieces : List (List Byte)) (hc : 0 < c) (hcl : c ≤ allocLimit)
    (hs : 17 ≤ s)
    (hhead : svc.headObject = some s) (hiv : svc.getObject 0 15 = some [iv])
    (hivlen : iv.length = 16)
    (hget : svc.getObject 16 (16 + min c (s - 16) - 1) = some pieces)
    (hshort : (pieces.flatten.length : Int) < min c (s - 16)) :
    ∀ fuel : Nat,
      (DownloadAndDecrypt dest block c svc allocLimit fuel).status = Status.running := by
  intro fuel
  have h' : ¬ s < ((16 : Nat) : Int) := by omega
  have hnc := makeFails_eq_false allocLimit c (by omega) hcl
  have hcb : (if c > s - 16 then s - 16 else c) = min c (s - 16) := by split <;> omega
  simp only [DownloadAndDecrypt, hhead, h', if_false, hiv, Body.Read, hivlen, BlockSize,
    Nat.le_refl, if_true, ne_eq, not_true_eq_false, hnc, Bool.false_eq_true]
  cases fuel with
  | zero => rfl
  | succ fuel =>
    have hpos : s - 16 > 0 := by omega
    rw [downloadLoop]
    simp only [hpos, if_true, hcb, hget]
    rw [drainLoop_short c fuel _ (by simpa using hshort)]

/-- Witness of C7: a 17-byte object whose chunk request `bytes=16-16` gets an empty body. -/
theorem download_short_body_never_ends_witness :
    (DownloadAndDecrypt none toyBlock 1024 shortStore maxAlloc 1000000).status =
      Status.running :=
  download_short_body_never_ends none toyBlock 1024 shortStore maxAlloc 17 zeroIV []
    (by decide) (by decide) (by decide) rfl rfl rfl rfl (by decide) 1000000

theorem exactStore_splitStore : exactStore tinyObject splitStore := by
  refine ⟨rfl, ?_⟩
  intro a b h0 hab hb
  by_cases h : a = 0 ∧ b = 15
  · refine ⟨[List.replicate 8 0, List.replicate 8 0], by simp [splitStore, h], ?_, ?_⟩
    · rw [h.1, h.2]; decide
    · intro p hp
      simp only [List.mem_cons, List.mem_singleton, List.not_mem_nil, or_false, or_self] at hp
      rw [hp]; decide
  · exact ⟨[slice tinyObject a b], by simp only [splitStore, h, if_false],
      exactBody_single tinyObject a b h0 hab hb⟩

theorem exactStore_wholeStore : exactStore tinyObject wholeStore := by
  refine ⟨rfl, ?_⟩
  intro a b h0 hab hb
  exact ⟨[slice tinyObject a b], rfl, exactBody_single tinyObject a b h0 hab hb⟩

/-- C9, the code at the failing input: `splitStore` holds the 17-byte `tinyObject` and
answers every range request with exactly the requested bytes in pieces of positive sizes,
the body of `bytes=0-15` in two pieces of 8 bytes; `DownloadAndDecrypt` with chunk size 1024
fetches the IV with one `Body.Read`, gets 8 bytes, exits with status 1 after the IV request
and leaves the destination empty, not the one decrypted byte. -/
theorem download_split_iv_rejected :
    exactStore tinyObject splitStore ∧
    (DownloadAndDecrypt none toyBlock 1024 splitStore maxAlloc 20).status = Status.exited 1 ∧
    (DownloadAndDecrypt none toyBlock 1024 splitStore maxAlloc 20).calls =
      [Call.headObject, Call.getObject 0 15] ∧
    (DownloadAndDecrypt none toyBlock 1024 splitStore maxAlloc 20).dest = [] ∧
    ctrCrypt toyBlock (tinyObject.take 16) (tinyObject.drop 16) ≠ [] :=
  ⟨exactStore_splitStore, by decide, by decide, by decide, by decide⟩

theorem filterMap_range_map (rs : List (Int × Int)) :
    (rs.map (fun r => Call.getObject r.1 r.2)).filterMap Call.range = rs := by
  induction rs with
  | nil => rfl
  | cons r rs ih => simp [Call.range, ih]

/-- Where the download does what is asked of it. For every stored object `O` of at least 16
bytes and every positive chunk size that `make` serves, against a store that answers each
range request with exactly the requested bytes, the body of the IV request handing over its
16 bytes at the first `Read` and the bodies of the chunk requests delivering theirs in
pieces of any positive sizes, `DownloadAndDecrypt` returns 0,
requests `bytes=0-15` and then the contiguous ranges from offset 16 of `min(c, len(O) - start)`
bytes each up to `len(O) - 1` (none when `len(O) = 16`), and leaves in an initially empty
destination the CTR transform of `O[16:]` under the IV `O[0:16]`, `len(O) - 16` bytes; so
an artifact `IV ++ CTR(P)` comes back as `P`. -/
theorem download_decrypts_object (dest : Option (List Byte)) (block : List Byte → List Byte)
    (c : Int) (svc : S3) (O : List Byte) (allocLimit : Int) (fuel : Nat) (hc : 0 < c)
    (hcl : c ≤ allocLimit) (hO : 16 ≤ O.length)
    (hd : dest.getD [] = []) (hstore : exactStore O svc)
    (hiv : svc.getObject 0 15 = some [O.take 16]) (hf : O.length < fuel) :
    (DownloadAndDecrypt dest block c svc allocLimit fuel).status = Status.returned 0 ∧
    (DownloadAndDecrypt dest block c svc allocLimit fuel).calls =
      Call.headObject :: Call.getObject 0 15 ::
        (((DownloadAndDecrypt dest block c svc allocLimit fuel).calls.drop 2).filterMap
          Call.range).map (fun r => Call.getObject r.1 r.2) ∧
    contiguousRanges c O.length 16
      (((DownloadAndDecrypt dest block c svc allocLimit fuel).calls.drop 2).filterMap
        Call.range) ∧
    (O.length = 16 →
      (DownloadAndDecrypt dest block c svc allocLimit fuel).calls.countP Call.isGet = 1) ∧
    (DownloadAndDecrypt dest block c svc allocLimit fuel).dest =
      ctrCrypt block (O.take 16) (O.drop 16) ∧
    (DownloadAndDecrypt dest block c svc allocLimit fuel).dest.length = O.length - 16 ∧
    (∀ iv P : List Byte, iv.length = 16 → O = iv ++ ctrCrypt block iv P →
      (DownloadAndDecrypt dest block c svc allocLimit fuel).dest = P) := by
  obtain ⟨hhead, hget⟩ := hstore
  have h' : ¬ (O.length : Int) < ((16 : Nat) : Int) := by omega
  have hnc := makeFails_eq_false allocLimit c (by omega) hcl
  have hlen : (O.take 16).length = 16 := by rw [List.length_take]; omega
  obtain ⟨rs, r1, r2, r3, r4⟩ := downloadLoop_spec svc O c hc
    (fun a b h1 h2 h3 => hget a b (by omega) h2 h3) fuel
    { stream := NewCTR block (O.take 16), fileOut := openDest dest,
      remain := (O.length : Int) - 16, blockNum := 0, offset := 16,
      calls := [Call.headObject, Call.getObject 0 15] }
    (by simp) (by dsimp only; omega) (by simp) (by simp [openDest]) (by dsimp only; omega)
  have hdest : (DownloadAndDecrypt dest block c svc allocLimit fuel).dest =
      ctrCrypt block (O.take 16) (O.drop 16) := by
    simp only [DownloadAndDecrypt, hhead, h', if_false, hiv, Body.Read, hlen, BlockSize,
      Nat.le_refl, if_true, ne_eq, not_true_eq_false, hnc, Bool.false_eq_true]
    rw [r4]
    simp [WriteFile.Write, openDest, ctrCrypt, NewCTR, hd]
  have hcalls : (DownloadAndDecrypt dest block c svc allocLimit fuel).calls =
      Call.headObject :: Call.getObject 0 15 :: rs.map (fun r => Call.getObject r.1 r.2) := by
    simp only [DownloadAndDecrypt, hhead, h', if_false, hiv, Body.Read, hlen, BlockSize,
      Nat.le_refl, if_true, ne_eq, not_true_eq_false, hnc, Bool.false_eq_true]
    rw [r2]; rfl
  have hrs : ((DownloadAndDecrypt dest block c svc allocLimit fuel).calls.drop 2).filterMap
      Call.range = rs := by
    rw [hcalls]
    simp only [List.drop_succ_cons, List.drop_zero]
    exact filterMap_range_map rs
  refine ⟨?_, ?_, ?_, ?_, hdest, ?_, ?_⟩
  · simp only [DownloadAndDecrypt, hhead, h', if_false, hiv, Body.Read, hlen, BlockSize,
      Nat.le_refl, if_true, ne_eq, not_true_eq_false, hnc, Bool.false_eq_true]
    exact r3
  · rw [hrs]; exact hcalls
  · rw [hrs]; exact r1
  · intro h16
    cases rs with
    | nil => rw [hcalls]; rfl
    | cons r rest =>
      simp only [contiguousRanges] at r1
      omega
  · rw [hdest]; simp [ctrCrypt, xorAt_length]
  · intro iv P hivl hOeq
    rw [hdest, hOeq, List.take_append_of_le_length (by omega),
      List.take_of_length_le (by omega), ← hivl, List.drop_left]
    exact xorAt_involutive _ _ _

/-- An instance: the 17-byte `tinyObject` on a store that answers in one piece. -/
theorem download_decrypts_object_witness :
    (DownloadAndDecrypt none toyBlock 1024 wholeStore maxAlloc 18).status =
      Status.returned 0 ∧
    (DownloadAndDecrypt none toyBlock 1024 wholeStore maxAlloc 18).calls =
      [Call.headObject, Call.getObject 0 15, Call.getObject 16 16] ∧
    (DownloadAndDecrypt none toyBlock 1024 wholeStore maxAlloc 18).dest =
      ctrCrypt toyBlock (tinyObject.take 16) (tinyObject.drop 16) :=
  ⟨(download_decrypts_object none toyBlock 1024 wholeStore tinyObject maxAlloc 18
      (by decide) (by decide) (by decide) rfl exactStore_wholeStore rfl (by decide)).1,
   by decide,
   (download_decrypts_object none toyBlock 1024 wholeStore tinyObject maxAlloc 18
      (by decide) (by decide) (by decide) rfl exactStore_wholeStore rfl (by decide)).2.2.2.2.1⟩

/-! ## Upload -/

theorem countP_uploadParts (log : List Call) (h : ∀ call ∈ log, call.isUploadPart = true)
    (p : Call → Bool) (hp : ∀ k body e, p (Call.uploadPart k body e) = false) :
    log.countP p = 0 := by
  rw [List.countP_eq_zero]
  intro call hm
  have := h call hm
  cases call <;> simp_all [Call.isUploadPart]

theorem filterMap_uploadParts {α : Type} (log : List Call)
    (h : ∀ call ∈ log, call.isUploadPart = true) (f : Call → Option α)
    (hf : ∀ k body e, f (Call.uploadPart k body e) = none) :
    log.filterMap f = [] := by
  rw [List.filterMap_eq_nil_iff]
  intro call hm
  have := h call hm
  cases call <;> simp_all [Call.isUploadPart]

theorem uploadInv_init (block : List Byte → List Byte) (P iv : List Byte) (c : Int)
    (hP : c < (P.length : Int) + 16) :
    UploadInv block P iv c
      { fileIn := { data := P, offset := 0 }, stream := NewCTR block iv,
        remain := (P.length : Int) + 16, blockNum := 1, completedParts := [],
        calls := [Call.createMultipartUpload] } 0 :=
  ⟨rfl, rfl, rfl, by simp, Or.inl ⟨rfl, rfl, rfl, rfl, hP⟩⟩

theorem partsLeft_init (P : List Byte) (c : Int) :
    partsLeft ((P.length : Int) + 16) c = partCount P c := by
  have e : ((P.length : Int) + 16).toNat = P.length + 16 := by omega
  simp only [partsLeft, partCount, e]

theorem UploadAndEncrypt_multipart (svc : S3) (block : List Byte → List Byte)
    (P iv : List Byte) (c : Int) (fuel : Nat) (hc : 16 ≤ c) (hP : c < (P.length : Int) + 16)
    (hcreate : svc.createMultipartUpload = true) :
    UploadAndEncrypt P block c iv svc fuel = uploadLoop svc iv c fuel
      { fileIn := { data := P, offset := 0 }, stream := NewCTR block iv,
        remain := (P.length : Int) + 16, blockNum := 1, completedParts := [],
        calls := [Call.createMultipartUpload] } := by
  have hnc : ¬ c < 0 := by omega
  have hns : ¬ (P.length : Int) + 16 ≤ c := by omega
  simp only [UploadAndEncrypt, hnc, hns, if_false, hcreate, if_true]

/-- C5. Multipart upload assembles the wire format. With a 16-byte IV, a chunk size
`c >= 16` and `len(P) + 16 > c`, on a store that creates the session and on which every part
`1..n`, `n = ceil((len(P)+16)/c)`, succeeds at one of its `maxRetries` attempts,
`UploadAndEncrypt` makes one `CreateMultipartUpload` call (the first call), one
`CompleteMultipartUpload` call (the last call), no abort and no put; the completion call
carries the records of the accepted part uploads in the order made, their part numbers are
`1, 2, ..., n`, each record carries an ETag the store answered for that part; the accepted
payloads concatenated in that order are `IV ++ CTR(P)`, and the first 16 bytes of the first
payload are the IV. -/
theorem upload_multipart_wire (svc : S3) (block : List Byte → List Byte) (P iv : List Byte)
    (c : Int) (fuel : Nat) (hiv : iv.length = 16) (hc : 16 ≤ c)
    (hP : c < (P.length : Int) + 16) (hcreate : svc.createMultipartUpload = true)
    (hok : ∀ i, 1 ≤ i → i ≤ partCount P c →
      ∃ t, 1 ≤ t ∧ t ≤ maxRetries ∧ (svc.uploadPart i t).isSome = true)
    (hf : P.length + 16 < fuel) :
    (UploadAndEncrypt P block c iv svc fuel).calls.head? = some Call.createMultipartUpload ∧
    (UploadAndEncrypt P block c iv svc fuel).calls.countP Call.isCreate = 1 ∧
    (UploadAndEncrypt P block c iv svc fuel).calls.countP Call.isComplete = 1 ∧
    (UploadAndEncrypt P block c iv svc fuel).calls.countP Call.isAbort = 0 ∧
    (UploadAndEncrypt P block c iv svc fuel).calls.countP Call.isPut = 0 ∧
    (UploadAndEncrypt P block c iv svc fuel).calls.getLast? =
      some (Call.completeMultipartUpload
        (((UploadAndEncrypt P block c iv svc fuel).calls.filterMap
          Call.acceptedRecord).map some)) ∧
    ((UploadAndEncrypt P block c iv svc fuel).calls.filterMap Call.acceptedRecord).map
      Prod.fst = List.range' 1 (partCount P c) ∧
    (∀ k body e, Call.uploadPart k body (some e) ∈
        (UploadAndEncrypt P block c iv svc fuel).calls →
      ∃ t, 1 ≤ t ∧ t ≤ maxRetries ∧ svc.uploadPart k t = some e) ∧
    ((UploadAndEncrypt P block c iv svc fuel).calls.filterMap
      Call.acceptedPayload).flatten = wire block iv P ∧
    ((UploadAndEncrypt P block c iv svc fuel).calls.filterMap
      Call.acceptedPayload).head?.map (List.take 16) = some iv ∧
    (UploadAndEncrypt P block c iv svc fuel).status =
      (if svc.completeMultipartUpload
          (((UploadAndEncrypt P block c iv svc fuel).calls.filterMap
            Call.acceptedRecord).map some)
        then Status.returned 0 else Status.exited 1) ∧
    (UploadAndEncrypt P block c iv svc fuel).calls.filterMap Call.completeRecords =
      [((UploadAndEncrypt P block c iv svc fuel).calls.filterMap
        Call.acceptedRecord).map some] := by
  obtain ⟨log, l1, l2, l3, l4, l5, l6, l7⟩ := uploadLoop_all_ok svc block P iv c hiv hc fuel
    { fileIn := { data := P, offset := 0 }, stream := NewCTR block iv,
      remain := (P.length : Int) + 16, blockNum := 1, completedParts := [],
      calls := [Call.createMultipartUpload] } 0 (uploadInv_init block P iv c hP)
    (by dsimp only; omega)
    (by
      intro i h1 h2
      dsimp only at h1 h2
      rw [partsLeft_init] at h2
      exact hok i h1 (by omega))
  rw [UploadAndEncrypt_multipart svc block P iv c fuel hc hP hcreate]
  dsimp only at l1 l2 l4 l7
  rw [List.nil_append] at l1 l2
  rw [partsLeft_init] at l4
  have hrec : (Call.createMultipartUpload :: (log ++ [Call.completeMultipartUpload
      ((log.filterMap Call.acceptedRecord).map some)])).filterMap Call.acceptedRecord =
      log.filterMap Call.acceptedRecord := by
    simp [List.filterMap_cons, List.filterMap_append, Call.acceptedRecord]
  have hpay : (Call.createMultipartUpload :: (log ++ [Call.completeMultipartUpload
      ((log.filterMap Call.acceptedRecord).map some)])).filterMap Call.acceptedPayload =
      log.filterMap Call.acceptedPayload := by
    simp [List.filterMap_cons, List.filterMap_append, Call.acceptedPayload]
  have hcalls : (uploadLoop svc iv c fuel
      { fileIn := { data := P, offset := 0 }, stream := NewCTR block iv,
        remain := (P.length : Int) + 16, blockNum := 1, completedParts := [],
        calls := [Call.createMultipartUpload] }).calls =
      Call.createMultipartUpload :: (log ++ [Call.completeMultipartUpload
        ((log.filterMap Call.acceptedRecord).map some)]) := by
    rw [l1]; rfl
  rw [hcalls, hrec, hpay]
  have hcnt := fun p hp => countP_uploadParts log l3 p hp
  refine ⟨rfl, ?_, ?_, ?_, ?_, ?_, l4, ?_, ?_, ?_, l2, ?_⟩
  rotate_right
  · simp [List.filterMap_cons, List.filterMap_append, Call.completeRecords,
      filterMap_uploadParts log l3 Call.completeRecords (fun _ _ _ => rfl)]
  · simp [List.countP_cons, List.countP_append, Call.isCreate,
      hcnt Call.isCreate (fun _ _ _ => rfl)]
  · simp [List.countP_cons, List.countP_append, Call.isComplete,
      hcnt Call.isComplete (fun _ _ _ => rfl)]
  · simp [List.countP_cons, List.countP_append, Call.isAbort,
      hcnt Call.isAbort (fun _ _ _ => rfl)]
  · simp [List.countP_cons, List.countP_append, Call.isPut,
      hcnt Call.isPut (fun _ _ _ => rfl)]
  · rw [← List.cons_append]; exact List.getLast?_concat _
  · intro k body e hm
    simp only [List.mem_cons, List.mem_append, List.mem_singleton, reduceCtorEq, false_or,
      or_false, List.not_mem_nil] at hm
    exact l5 k body e hm
  · rw [l6]; rfl
  · rw [l7 (by omega)]
    have hmin : (min c ((P.length : Int) + 16)).toNat = c.toNat := by omega
    simp only [Option.map_some', List.drop_zero, hmin, List.take_take, wire]
    have h16 : min 16 c.toNat = 16 := by omega
    rw [h16, List.take_append_of_le_length (by omega), List.take_of_length_le (by omega)]

theorem uploadPartLoop_calls (svc : S3) (body : List Byte) (pn fuel tryNum : Nat) :
    ∀ call ∈ (uploadPartLoop svc body pn fuel tryNum).calls,
      ∃ e, call = Call.uploadPart pn body e := by
  induction fuel generalizing tryNum with
  | zero => intro call h; simp [uploadPartLoop] at h
  | succ fuel ih =>
    intro call h
    rw [uploadPartLoop] at h
    split at h
    · split at h
      · split at h
        · exact ⟨none, by simpa using h⟩
        · rcases List.mem_cons.1 h with h | h
          · exact ⟨none, h⟩
          · exact ih (tryNum + 1) call h
      · exact ⟨_, by simpa using h⟩
    · simp at h

theorem uploadPart_calls (svc : S3) (body : List Byte) (pn : Nat) :
    ∀ call ∈ (uploadPart svc body pn).calls, ∃ e, call = Call.uploadPart pn body e :=
  uploadPartLoop_calls svc body pn maxRetries 1

theorem uploadLoop_attempt_range (svc : S3) (block : List Byte → List Byte) (P iv : List Byte)
    (c : Int) (hiv : iv.length = 16) (hc : 16 ≤ c) (N fuel : Nat) (st : UploadState) (w : Nat)
    (hinv : UploadInv block P iv c st w)
    (hout : N < st.blockNum ∨ st.blockNum + partsLeft st.remain c ≤ N ∨
      st.blockNum + fuel ≤ N) :
    ∃ log : List Call, (uploadLoop svc iv c fuel st).calls = st.calls ++ log ∧
      ∀ call ∈ log, call.isAttemptOf N = false := by
  induction fuel generalizing st w with
  | zero => exact ⟨[], by simp [uploadLoop], by simp⟩
  | succ fuel ih =>
    by_cases hpos : st.remain > 0
    · obtain ⟨st', cb, hcb, hinv', hbn, hparts, hcalls, hstep⟩ :=
        uploadLoop_step svc block P iv c hiv hc fuel st w hinv hpos
      have hpl := partsLeft_pos_step st.remain c (by omega) hpos
      have hrem' : st'.remain = st.remain - min c st.remain := by
        obtain ⟨_, _, _, h1, _⟩ := hinv
        obtain ⟨_, _, _, h2, _⟩ := hinv'
        rw [← hcb, h2, h1]; push_cast; omega
      have hne : st.blockNum ≠ N := by omega
      have hup : ∀ call ∈ (uploadPart svc (((wire block iv P).drop w).take cb)
          st.blockNum).calls, call.isAttemptOf N = false := by
        intro call hm
        obtain ⟨e, he⟩ := uploadPart_calls svc _ _ call hm
        rw [he]; simp [Call.isAttemptOf, hne]
      rw [hstep]
      split
      · refine ⟨(uploadPart svc (((wire block iv P).drop w).take cb) st.blockNum).calls ++
          [Call.abortMultipartUpload], by simp, ?_⟩
        intro call hm
        rcases List.mem_append.1 hm with hm | hm
        · exact hup call hm
        · rw [List.mem_singleton.1 hm]; rfl
      · obtain ⟨log', l1, l2⟩ := ih st' (w + cb) hinv' (by rw [hbn, hrem']; omega)
        refine ⟨(uploadPart svc (((wire block iv P).drop w).take cb) st.blockNum).calls ++
          log', by rw [l1, hcalls, List.append_assoc], ?_⟩
        intro call hm
        rcases List.mem_append.1 hm with hm | hm
        · exact hup call hm
        · exact l2 call hm
    · refine ⟨[Call.completeMultipartUpload st.completedParts], ?_, ?_⟩
      · rw [uploadLoop]; simp [hpos, completeMultipartUpload]
      · intro call hm; rw [List.mem_singleton.1 hm]; rfl

theorem UploadAndEncrypt_no_attempt (svc : S3) (block : List Byte → List Byte)
    (P iv : List Byte) (c : Int) (fuel N : Nat)
    (h : ¬ (16 ≤ c ∧ c < (P.length : Int) + 16 ∧ svc.createMultipartUpload = true)) :
    ∀ call ∈ (UploadAndEncrypt P block c iv svc fuel).calls, call.isAttemptOf N = false := by
  intro call hm
  simp only [UploadAndEncrypt] at hm
  split at hm
  · simp at hm
  · split at hm
    · split at hm
      · simp at hm
      · split at hm
        · simp at hm
        · rw [List.mem_singleton.1 hm]; rfl
    · split at hm
      · rename_i h1 h2 h3
        have hlt : c < 16 := by
          by_contra hge
          exact h ⟨by omega, by omega, h3⟩
        cases fuel with
        | zero => simp only [uploadLoop] at hm; rw [List.mem_singleton.1 hm]; rfl
        | succ fuel =>
          rw [uploadLoop] at hm
          have hp : (P.length : Int) + 16 > 0 := by omega
          have hpanic : (1 = 1 ∧ c < ((BlockSize : Nat) : Int)) := ⟨rfl, by simpa [BlockSize] using hlt⟩
          simp only [hp, if_true, hpanic] at hm
          rw [List.mem_singleton.1 hm]; rfl
      · rw [List.mem_singleton.1 hm]; rfl

/-- Witness of C5: 20 bytes, chunk size 16, three parts, each accepted at its second
attempt. -/
theorem upload_multipart_wire_witness :
    ((UploadAndEncrypt (List.range 20) toyBlock 16 zeroIV acceptingStore 37).calls.filterMap
      Call.acceptedRecord).map Prod.fst = List.range' 1 (partCount (List.range 20) 16) ∧
    ((UploadAndEncrypt (List.range 20) toyBlock 16 zeroIV acceptingStore 37).calls.filterMap
      Call.acceptedPayload).flatten = wire toyBlock zeroIV (List.range 20) :=
  ⟨(upload_multipart_wire acceptingStore toyBlock (List.range 20) zeroIV 16 37 rfl
      (by decide) (by decide) rfl (fun _ _ _ => ⟨2, by decide, by decide, rfl⟩)
      (by decide)).2.2.2.2.2.2.1,
   (upload_multipart_wire acceptingStore toyBlock (List.range 20) zeroIV 16 37 rfl
      (by decide) (by decide) rfl (fun _ _ _ => ⟨2, by decide, by decide, rfl⟩)
      (by decide)).2.2.2.2.2.2.2.2.1⟩

/-- C6. Multipart failure injection. In a multipart upload (16-byte IV, `c >= 16`,
`len(P) + 16 > c`, session created) with `1 <= N <= n`, if each of the parts `1..N-1` succeeds
at one of its attempts and every attempt at part `N` fails, then part `N` is attempted
exactly 10 times, no part above `N` is attempted, there is exactly one
`AbortMultipartUpload` call and no `CompleteMultipartUpload` call, and the run ends with
status 1: returned when the abort call succeeds, through `CheckErrorAndExit` when it fails;
never with 0. -/
theorem upload_part_failure_aborts (svc : S3) (block : List Byte → List Byte)
    (P iv : List Byte) (c : Int) (N fuel : Nat) (hiv : iv.length = 16) (hc : 16 ≤ c)
    (hP : c < (P.length : Int) + 16) (hcreate : svc.createMultipartUpload = true)
    (hN1 : 1 ≤ N) (hN : N ≤ partCount P c)
    (hok : ∀ i, 1 ≤ i → i < N →
      ∃ t, 1 ≤ t ∧ t ≤ maxRetries ∧ (svc.uploadPart i t).isSome = true)
    (hfail : ∀ t, 1 ≤ t → t ≤ maxRetries → svc.uploadPart N t = none)
    (hf : N < fuel) :
    (UploadAndEncrypt P block c iv svc fuel).calls.countP (Call.isAttemptOf N) = 10 ∧
    (UploadAndEncrypt P block c iv svc fuel).calls.countP (Call.isAttemptAbove N) = 0 ∧
    (UploadAndEncrypt P block c iv svc fuel).calls.countP Call.isAbort = 1 ∧
    (UploadAndEncrypt P block c iv svc fuel).calls.countP Call.isComplete = 0 ∧
    (UploadAndEncrypt P block c iv svc fuel).status =
      (if svc.abortMultipartUpload then Status.returned 1 else Status.exited 1) ∧
    (UploadAndEncrypt P block c iv svc fuel).status ≠ Status.returned 0 := by
  obtain ⟨log, l1, l2, l3, l4, l5⟩ := uploadLoop_fail_at svc block P iv c hiv hc N fuel
    { fileIn := { data := P, offset := 0 }, stream := NewCTR block iv,
      remain := (P.length : Int) + 16, blockNum := 1, completedParts := [],
      calls := [Call.createMultipartUpload] } 0 (uploadInv_init block P iv c hP)
    hN1 (by dsimp only; rw [partsLeft_init]; omega) (by dsimp only; omega)
    (fun i h1 h2 => hok i h1 h2) hfail
  rw [UploadAndEncrypt_multipart svc block P iv c fuel hc hP hcreate]
  have hcnt := fun p hp => countP_uploadParts log l3 p hp
  rw [l1, l2]
  dsimp only
  refine ⟨?_, ?_, ?_, ?_, rfl, ?_⟩
  · simp [List.countP_cons, List.countP_append, Call.isAttemptOf, l4, maxRetries]
  · simp [List.countP_cons, List.countP_append, Call.isAttemptAbove, l5]
  · simp [List.countP_cons, List.countP_append, Call.isAbort,
      hcnt Call.isAbort (fun _ _ _ => rfl)]
  · simp [List.countP_cons, List.countP_append, Call.isComplete,
      hcnt Call.isComplete (fun _ _ _ => rfl)]
  · split <;> simp

/-- Witness of C6: 20 bytes, chunk size 16, part 2 of 3 fails at every attempt and the abort
call fails as well. -/
theorem upload_part_failure_aborts_witness :
    (UploadAndEncrypt (List.range 20) toyBlock 16 zeroIV failingStore 3).calls.countP
      (Call.isAttemptOf 2) = 10 ∧
    (UploadAndEncrypt (List.range 20) toyBlock 16 zeroIV failingStore 3).calls.countP
      (Call.isAttemptAbove 2) = 0 ∧
    (UploadAndEncrypt (List.range 20) toyBlock 16 zeroIV failingStore 3).calls.countP
      Call.isAbort = 1 ∧
    (UploadAndEncrypt (List.range 20) toyBlock 16 zeroIV failingStore 3).calls.countP
      Call.isComplete = 0 ∧
    (UploadAndEncrypt (List.range 20) toyBlock 16 zeroIV failingStore 3).status =
      Status.exited 1 := by
  obtain ⟨h1, h2, h3, h4, h5, _⟩ := upload_part_failure_aborts failingStore toyBlock
    (List.range 20) zeroIV 16 2 3 rfl (by decide) (by decide) rfl (by decide) (by decide)
    (fun _ _ _ => ⟨1, by decide, by decide, by simp [failingStore]; omega⟩)
    (fun _ _ _ => rfl) (by decide)
  exact ⟨h1, h2, h3, h4, h5⟩

/-- C4, the code at the failing input: uploading an empty file with the default chunk size of
5 MiB takes the single-shot branch, where `fileIn.Read` on the non-empty buffer answers
`0, io.EOF`; the run exits with status 1 and makes no `PutObject` call (no call at all), on
a store that would accept every call. -/
theorem upload_empty_file_exits :
    ((0 : Int) + 16 ≤ chunkOfFlag 5120) ∧
    (UploadAndEncrypt [] toyBlock (chunkOfFlag 5120) zeroIV acceptingStore 1).status =
      Status.exited 1 ∧
    (UploadAndEncrypt [] toyBlock (chunkOfFlag 5120) zeroIV acceptingStore 1).calls = [] ∧
    (UploadAndEncrypt [] toyBlock 17 zeroIV acceptingStore 1).status = Status.exited 1 ∧
    (UploadAndEncrypt [] toyBlock 17 zeroIV acceptingStore 1).calls = [] := by
  decide

/-- Single-shot upload where the code does perform it: for a non-empty plaintext (or chunk
size exactly 16) with `len(P) + 16 <= c`, the two chunk buffers made, and a store that
accepts the put, `UploadAndEncrypt` returns 0 after exactly one call, a `PutObject` whose
body is `IV ++ CTR(P)`. -/
theorem upload_single_shot (svc : S3) (block : List Byte → List Byte) (P iv : List Byte)
    (c : Int) (fuel : Nat) (hiv : iv.length = 16) (hP : (P.length : Int) + 16 ≤ c)
    (hne : P ≠ [] ∨ c = 16) (hput : svc.putObject (wire block iv P) = true) :
    (UploadAndEncrypt P block c iv svc fuel).status = Status.returned 0 ∧
    (UploadAndEncrypt P block c iv svc fuel).calls = [Call.putObject (wire block iv P)] ∧
    (wire block iv P).length = P.length + 16 := by
  have hnc : ¬ c < 0 := by omega
  have hread := Read_eq ⟨P, 0⟩ (c.toNat - 16) (by
    rcases hne with h | h
    · right
      have : 0 < P.length := List.length_pos.2 h
      simpa using this
    · left; omega)
  have htake : (P.drop 0).take (c.toNat - 16) = P := by
    rw [List.drop_zero, List.take_of_length_le (by omega)]
  dsimp only at hread
  rw [htake] at hread
  have hr : ((P.length : Int) + ((16 : Nat) : Int)).toNat = P.length + 16 := by omega
  have hbody : (iv ++ xorAt (keystreamByte block iv) 0 (P.take (P.length + 16 - 16))).take
      (P.length + 16) = wire block iv P := by
    rw [Nat.add_sub_cancel, List.take_of_length_le (Nat.le_refl _),
      List.take_of_length_le (by simp [xorAt_length, hiv]; omega)]
    rfl
  have hcast : (P.length : Int) + ((16 : Nat) : Int) = (P.length : Int) + 16 := rfl
  simp only [UploadAndEncrypt, hnc, if_false, hP, if_true, BlockSize, hread,
    Bool.false_eq_true, hcast, ne_eq, not_true_eq_false, CTRStream.XORKeyStream, NewCTR]
  have hr2 : ((P.length : Int) + 16).toNat = P.length + 16 := by omega
  simp only [hr2, hbody, hput, if_true]
  exact ⟨trivial, trivial, by rw [wire_length, hiv]; omega⟩

end S3aescp
